import Mathlib

/-!
Shallow embedding of the `@johntalton/cyclic-fs` library (src/src/index.js and
the fuller copy shipped with the test-suite file): a circular, wear-leveled
"latest value" store over a byte-addressable EEPROM.

The backing store is modelled as a total function from absolute addresses to
cell values; reads reduce each cell mod 256, exactly as a `Uint8Array` cell
coerces stored values.  JS numbers holding addresses and offsets are modelled
as `Int` (they may transiently go negative inside the binary search); version
values are the `Nat` results of `DataView.getUint32`.  The fallible
`eeprom.write` capability is an abstract `StoreWrite` returning `Option`;
`totalWrite` is the always-succeeding instance used for "successful write"
scenarios.  The recursive inner closure of `#search_binary` carries an explicit
fuel (the source recursion has no structural bound) plus a ghost log of the
slot positions whose headers it reads; exhausting fuel (`none`) marks
divergence of the source recursion.
-/

namespace CyclicFS

/-- A byte-addressable backing store: absolute address to stored cell value. -/
def Store : Type := Int → Nat

def DEFAULT_BASE_ADDRESS : Int := 0
def DEFAULT_STRIDE : Int := 32
def DEFAULT_LITTLE_ENDIAN : Bool := false
def DEFAULT_FULL_SCAN : Bool := false
def HEADER_SIZE : Nat := 4
def HEADER_INIT_VALUE8 : Nat := 0xFF
def HEADER_INIT_VALUE32 : Nat := 0xFFFFFFFF

/-- Number of values yielded by JS `function* range(start, end, step)`:
it yields `start, start+step, ...` while the value is `≤ end`.  A
non-positive step loops forever in JS; the embedding returns an empty list
there (no operation of the library is invoked with a non-positive stride in
any claim). -/
def rangeLen (start stop step : Int) : Nat :=
  if stop < start ∨ step ≤ 0 then 0 else ((stop - start) / step).toNat + 1

/-- JS `function* range(start, end, step)` materialized as a list. -/
def range (start stop step : Int) : List Int :=
  (List.range (rangeLen start stop step)).map (fun (i : Nat) => start + (i : Int) * step)

/-- Overwrite `bytes.length` cells starting at `addr` (`Uint8Array.set`). -/
def storeSet (s : Store) (addr : Int) (bytes : List Nat) : Store :=
  fun a => if addr ≤ a ∧ a < addr + bytes.length then bytes.getD (a - addr).toNat 0 else s a

/-- Positioned read of `len` bytes (`eeprom.read(addr, len)` on the in-range
path); each cell is reduced mod 256 as a `Uint8Array` cell is. -/
def storeRead (s : Store) (addr : Int) (len : Nat) : List Nat :=
  (List.range len).map (fun (i : Nat) => s (addr + (i : Int)) % 256)

/-- DataView.getUint32 over the first four bytes of a block. -/
def bytesToU32 (b : List Nat) (littleEndian : Bool) : Nat :=
  if littleEndian then
    b.getD 0 0 + b.getD 1 0 * 256 + b.getD 2 0 * 65536 + b.getD 3 0 * 16777216
  else
    b.getD 0 0 * 16777216 + b.getD 1 0 * 65536 + b.getD 2 0 * 256 + b.getD 3 0

/-- DataView.setUint32: the four bytes of `v mod 2^32` in the given byte
order (JS coerces the argument to an unsigned 32-bit integer). -/
def u32ToBytes (v : Nat) (littleEndian : Bool) : List Nat :=
  if littleEndian then
    [v % 256, v / 256 % 256, v / 65536 % 256, v / 16777216 % 256]
  else
    [v / 16777216 % 256, v / 65536 % 256, v / 256 % 256, v % 256]

/-- The `meta` object assembled by `init` (the source `SearchOptions`):
layout parameters plus the head-finder mode. -/
structure Config where
  baseAddress : Int
  stride : Int
  littleEndian : Bool
  byteLength : Int
  fullScan : Bool
deriving DecidableEq, Repr

/-- Result of a head search: `(version, offset, empty)`. -/
structure SearchResult where
  version : Nat
  offset : Int
  empty : Bool
deriving DecidableEq, Repr

/-- A handle (`Metadata` in the source): the `meta` fields spread together
with the search result fields. -/
structure Metadata extends Config where
  version : Nat
  offset : Int
  empty : Bool
deriving DecidableEq, Repr

/-- Abstract fallible positioned write into the backing store
(`eeprom.write`); `none` models a rejected or failed write. -/
def StoreWrite : Type := Store → Int → List Nat → Option Store

/-- The always-succeeding store-write capability. -/
def totalWrite : StoreWrite := fun s addr bytes => some (storeSet s addr bytes)

/-- CyclicFS.format: write `byteLength` bytes of `0xFF` at `baseAddress`
in one store write. -/
def format (sw : StoreWrite) (s : Store) (byteLength : Int) (baseAddress : Int) :
    Option Store :=
  sw s baseAddress ((range 0 (byteLength - 1) 1).map (fun _ => HEADER_INIT_VALUE8))

/-- CyclicFS.#readVersion: read `HEADER_SIZE` bytes at `baseAddress + offset`
and interpret them as an unsigned 32-bit integer in the configured order. -/
def readVersion (s : Store) (options : Config) (offset : Int) : Nat :=
  bytesToU32 (storeRead s (options.baseAddress + offset) HEADER_SIZE) options.littleEndian

/-- CyclicFS.#readSlot: read `stride` bytes at `baseAddress + offset`; the
version is the header prefix, the data aliases the rest of the block. -/
def readSlot (s : Store) (offset : Int) (options : Config) : Nat × List Nat :=
  let block := storeRead s (options.baseAddress + offset) options.stride.toNat
  (bytesToU32 (block.take HEADER_SIZE) options.littleEndian, block.drop HEADER_SIZE)

/-- Loop body of CyclicFS.#search_linear over the remaining offsets. -/
def searchLinearGo (s : Store) (options : Config) :
    List Int → SearchResult → SearchResult
  | [], result => result
  | offset :: rest, result =>
    let version := readVersion s options offset
    if version = HEADER_INIT_VALUE32 then result
    else if version > result.version ∨ result.empty = true then
      searchLinearGo s options rest ⟨version, offset, false⟩
    else
      searchLinearGo s options rest result

/-- CyclicFS.#search_linear: scan `range(0, byteLength - 1, stride)`,
recording the largest version seen, stopping at the first erased header. -/
def search_linear (s : Store) (options : Config) : SearchResult :=
  searchLinearGo s options (range 0 (options.byteLength - 1) options.stride) ⟨0, 0, true⟩

/-- The recursive inner `_search` closure of CyclicFS.#search_binary, with an
explicit fuel and a ghost log of the slot positions whose headers it reads.
JS `Math.floor(startPos + (endPos - startPos) / 2)` equals the floor of
`(startPos + endPos) / 2`, which is `Int` division (ediv) by the positive 2. -/
def searchBinaryGo (s : Store) (options : Config) :
    Nat → Int → Int → Nat → Option (SearchResult × List Int)
  | 0, _, _, _ => none
  | fuel + 1, startPos, endPos, startValue =>
    if startPos = endPos then some (⟨startValue, startPos * options.stride, false⟩, [])
    else
      let pivot := (startPos + endPos) / 2
      let pivotValue := readVersion s options (pivot * options.stride)
      if pivotValue < startValue ∨ pivotValue = HEADER_INIT_VALUE32 then
        (searchBinaryGo s options fuel startPos (pivot - 1) startValue).map
          (fun rl => (rl.1, pivot :: rl.2))
      else
        let newStartValue := readVersion s options ((pivot + 1) * options.stride)
        if pivotValue > newStartValue ∨ newStartValue = HEADER_INIT_VALUE32 then
          some (⟨pivotValue, pivot * options.stride, false⟩, [pivot, pivot + 1])
        else
          (searchBinaryGo s options fuel (pivot + 1) endPos newStartValue).map
            (fun rl => (rl.1, pivot :: (pivot + 1) :: rl.2))

/-- CyclicFS.#search_binary: check slot 0, then run the recursive search over
`[0, slotCount - 1]`.  `slotCount` slots bound the recursion depth of every
terminating source run, so that much fuel is supplied; `none` marks a run on
which the source recursion diverges. -/
def search_binary (s : Store) (options : Config) : Option (SearchResult × List Int) :=
  let value := readVersion s options 0
  if value = HEADER_INIT_VALUE32 then some (⟨0, 0, true⟩, [0])
  else
    let slotCount := options.byteLength / options.stride
    (searchBinaryGo s options slotCount.toNat 0 (slotCount - 1) value).map
      (fun rl => (rl.1, 0 :: rl.2))

/-- CyclicFS.#search: dispatch on `fullScan`. -/
def search (s : Store) (options : Config) : Option SearchResult :=
  if options.fullScan = true then some (search_linear s options)
  else (search_binary s options).map (fun rl => rl.1)

/-- CyclicFS.init: run the head search over the assembled `meta` object and
spread the result over it. -/
def init (s : Store) (options : Config) : Option Metadata :=
  (search s options).map (fun r =>
    { toConfig := options, version := r.version, offset := r.offset, empty := r.empty })

inductive ReadError | versionMismatch
deriving DecidableEq, Repr

/-- CyclicFS.read: `undefined` on an empty handle, error on a version
mismatch, otherwise the payload region of the head slot. -/
def read (s : Store) (metadata : Metadata) : Except ReadError (Option (List Nat)) :=
  if metadata.empty = true then .ok none
  else
    let slot := readSlot s metadata.offset metadata.toConfig
    if slot.1 ≠ metadata.version then .error .versionMismatch
    else .ok (some slot.2)

inductive WriteError | bufferUndefined | bufferTooLarge | storeFailure
deriving DecidableEq, Repr

/-- CyclicFS.write: validate the payload, compute the next slot, emit one
store write of header ++ payload, then (only on success) update the handle
in place.  The returned triple is (propagated error, store state, the
caller's handle after the call). -/
def write (sw : StoreWrite) (s : Store) (metadata : Metadata)
    (buffer : Option (List Nat)) : Option WriteError × Store × Metadata :=
  match buffer with
  | none => (some .bufferUndefined, s, metadata)
  | some buf =>
    if ((buf.length : Int) + (HEADER_SIZE : Int)) > metadata.stride then
      (some .bufferTooLarge, s, metadata)
    else
      let wrap : Bool := decide (metadata.offset + metadata.stride ≥ metadata.byteLength)
      let nextVersion := if metadata.empty = true then metadata.version else metadata.version + 1
      let nextOffset := if metadata.empty = true then metadata.offset
        else if wrap then 0 else metadata.offset + metadata.stride
      let block := u32ToBytes nextVersion metadata.littleEndian ++ buf
      match sw s (metadata.baseAddress + nextOffset) block with
      | none => (some .storeFailure, s, metadata)
      | some s1 =>
        (none, s1,
          { metadata with version := nextVersion, offset := nextOffset, empty := false })

/-- Loop body of CyclicFS.list over the remaining relative offsets. -/
def listGo (s : Store) (metadata : Metadata) : List Int → List (Nat × List Nat)
  | [] => []
  | relativeOffset :: rest =>
    let actualOffset :=
      (metadata.offset - relativeOffset + metadata.byteLength) % metadata.byteLength
    let slot := readSlot s actualOffset metadata.toConfig
    if slot.1 = HEADER_INIT_VALUE32 then []
    else slot :: listGo s metadata rest

/-- CyclicFS.list: walk backward from the head modulo the ring, stopping at
the first erased slot (the async generator materialized as a list). -/
def list (s : Store) (metadata : Metadata) : List (Nat × List Nat) :=
  if metadata.empty = true then []
  else listGo s metadata (range 0 (metadata.byteLength - 1) metadata.stride)

/-- CyclicFS.listSlots: every slot of `range(0, byteLength - 1, stride)` in
physical order (the async generator materialized as a list). -/
def listSlots (s : Store) (options : Config) : List (Nat × List Nat) :=
  (range 0 (options.byteLength - 1) options.stride).map (fun offset => readSlot s offset options)

/-- Iterate `write` with the always-succeeding store over a list of payloads,
threading store and handle (the shape of every multi-write test scenario). -/
def writeMany (ps : List (List Nat)) (s : Store) (metadata : Metadata) :
    Store × Metadata :=
  ps.foldl (fun sm p => (write totalWrite sm.1 sm.2 (some p)).2) (s, metadata)

/-! ### Byte-level lemmas about the store model -/

theorem storeSet_notin (s : Store) (addr : Int) (bytes : List Nat) (a : Int)
    (h : a < addr ∨ addr + bytes.length ≤ a) : storeSet s addr bytes a = s a := by
  unfold storeSet
  split
  · exfalso; omega
  · rfl

theorem storeSet_in (s : Store) (addr : Int) (bytes : List Nat) (a : Int)
    (h1 : addr ≤ a) (h2 : a < addr + bytes.length) :
    storeSet s addr bytes a = bytes.getD (a - addr).toNat 0 := by
  unfold storeSet
  rw [if_pos ⟨h1, h2⟩]

theorem length_storeRead (s : Store) (addr : Int) (len : Nat) :
    (storeRead s addr len).length = len := by
  unfold storeRead
  rw [List.length_map, List.length_range]

theorem getElem_storeRead (s : Store) (addr : Int) (len : Nat) (i : Nat)
    (h : i < (storeRead s addr len).length) :
    (storeRead s addr len)[i] = s (addr + (i : Int)) % 256 := by
  unfold storeRead
  rw [List.getElem_map, List.getElem_range]

theorem storeRead_storeSet_inside (s : Store) (addr : Int) (bytes : List Nat)
    (off len : Nat) (h : off + len ≤ bytes.length) :
    storeRead (storeSet s addr bytes) (addr + (off : Int)) len
      = ((bytes.drop off).take len).map (· % 256) := by
  apply List.ext_getElem
  · rw [length_storeRead, List.length_map, List.length_take, List.length_drop]
    omega
  · intro i h1 h2
    have hi : i < len := by rw [length_storeRead] at h1; exact h1
    rw [getElem_storeRead, List.getElem_map, List.getElem_take, List.getElem_drop]
    rw [storeSet_in _ _ _ _ (by omega) (by omega)]
    have hidx : (addr + (off : Int) + (i : Int) - addr).toNat = off + i := by omega
    rw [hidx, List.getD_eq_getElem _ _ (by omega)]

theorem storeRead_storeSet_outside (s : Store) (addr : Int) (bytes : List Nat)
    (x : Int) (len : Nat) (h : x + len ≤ addr ∨ addr + bytes.length ≤ x) :
    storeRead (storeSet s addr bytes) x len = storeRead s x len := by
  simp only [storeRead]
  apply List.map_congr_left
  intro i hi
  rw [List.mem_range] at hi
  rw [storeSet_notin]
  omega

theorem storeRead_formatted (s0 : Store) (b : Int) (m : Nat) (x : Int) (len : Nat)
    (h1 : b ≤ x) (h2 : x + len ≤ b + m) :
    storeRead (storeSet s0 b (List.replicate m HEADER_INIT_VALUE8)) x len
      = List.replicate len HEADER_INIT_VALUE8 := by
  apply List.ext_getElem
  · rw [length_storeRead, List.length_replicate]
  · intro i hi1 hi2
    have hi : i < len := by rw [length_storeRead] at hi1; exact hi1
    rw [getElem_storeRead, List.getElem_replicate]
    rw [storeSet_in _ _ _ _ (by omega) (by rw [List.length_replicate]; omega)]
    rw [List.getD_eq_getElem _ _ (by rw [List.length_replicate]; omega)]
    rw [List.getElem_replicate]
    rfl

theorem bytesToU32_replicate_ff (le : Bool) :
    bytesToU32 (List.replicate 4 HEADER_INIT_VALUE8) le = HEADER_INIT_VALUE32 := by
  cases le <;> rfl

theorem length_u32ToBytes (v : Nat) (le : Bool) : (u32ToBytes v le).length = 4 := by
  cases le <;> rfl

theorem bytesToU32_u32ToBytes (v : Nat) (le : Bool) :
    bytesToU32 (u32ToBytes v le) le = v % 4294967296 := by
  cases le <;> simp [bytesToU32, u32ToBytes] <;> omega

theorem u32ToBytes_map_mod (v : Nat) (le : Bool) :
    (u32ToBytes v le).map (· % 256) = u32ToBytes v le := by
  cases le <;> simp [u32ToBytes]

/-! ### Lemmas about the `range` generator -/

theorem rangeLen_of_le (start stop step : Int) (h1 : 0 < step) (h2 : start ≤ stop) :
    rangeLen start stop step = ((stop - start) / step).toNat + 1 := by
  unfold rangeLen
  rw [if_neg (by omega)]

theorem rangeLen_of_gt (start stop step : Int) (h : stop < start) :
    rangeLen start stop step = 0 := by
  unfold rangeLen
  rw [if_pos (Or.inl h)]

theorem format_totalWrite (s : Store) (byteLength baseAddress : Int) :
    format totalWrite s byteLength baseAddress
      = some (storeSet s baseAddress
          (List.replicate byteLength.toNat HEADER_INIT_VALUE8)) := by
  unfold format totalWrite
  congr 1
  rw [List.map_const']
  have hlen : (range 0 (byteLength - 1) 1).length = byteLength.toNat := by
    unfold range
    rw [List.length_map, List.length_range]
    rcases le_or_lt byteLength 0 with h | h
    · rw [rangeLen_of_gt _ _ _ (by omega)]
      omega
    · rw [rangeLen_of_le _ _ _ (by omega) (by omega)]
      omega
  rw [hlen]

theorem range_ring (sN nN : Nat) (h5 : 1 ≤ sN) (hn : 1 ≤ nN) :
    range 0 (((nN * sN : Nat) : Int) - 1) (sN : Int)
      = (List.range nN).map (fun j => ((j : Nat) : Int) * (sN : Int)) := by
  unfold range
  have hL : rangeLen 0 (((nN * sN : Nat) : Int) - 1) (sN : Int) = nN := by
    rw [rangeLen_of_le _ _ _ (by exact_mod_cast h5) (by push_cast; nlinarith)]
    have hdiv : (((nN * sN : Nat) : Int) - 1 - 0) / (sN : Int) = (nN : Int) - 1 := by
      have hrw : ((nN * sN : Nat) : Int) - 1 - 0
          = ((sN : Int) - 1) + ((nN : Int) - 1) * (sN : Int) := by push_cast; ring
      rw [hrw, Int.add_mul_ediv_right _ _ (by omega)]
      rw [Int.ediv_eq_zero_of_lt (by omega) (by omega)]
      ring
    rw [hdiv]
    omega
  rw [hL]
  apply List.map_congr_left
  intro i hi
  ring

/-! ### Ring arithmetic: the version held by each slot after k writes -/

/-- Version value held by physical slot `j` of an `n`-slot ring after `k ≥ 1`
successful writes from a fresh format, for `j < min k n`: the largest write
index `≤ k - 1` congruent to `j` mod `n`. -/
def verAt (k j n : Nat) : Nat := j + n * ((k - 1 - j) / n)

theorem verAt_le (k j n : Nat) (hj : j ≤ k - 1) : verAt k j n ≤ k - 1 := by
  unfold verAt
  have h1 : (k - 1 - j) / n * n ≤ k - 1 - j := Nat.div_mul_le_self _ _
  have h2 : n * ((k - 1 - j) / n) = (k - 1 - j) / n * n := Nat.mul_comm _ _
  omega

theorem verAt_left (k j n : Nat) (hn : 0 < n) (hj : j ≤ (k - 1) % n) :
    verAt k j n = j + n * ((k - 1) / n) := by
  unfold verAt
  have hd := Nat.div_add_mod (k - 1) n
  have hmod := Nat.mod_lt (k - 1) hn
  have hrw : k - 1 - j = ((k - 1) % n - j) + n * ((k - 1) / n) := by omega
  rw [hrw, Nat.add_mul_div_left _ _ hn, Nat.div_eq_of_lt (by omega), Nat.zero_add]

theorem verAt_head (k n : Nat) (hn : 0 < n) (_hk : 1 ≤ k) :
    verAt k ((k - 1) % n) n = k - 1 := by
  rw [verAt_left _ _ _ hn (le_refl _)]
  have hd := Nat.div_add_mod (k - 1) n
  omega

theorem verAt_right (k j n : Nat) (hn : 0 < n) (hj1 : (k - 1) % n < j) (hj2 : j < n)
    (hj3 : j ≤ k - 1) :
    verAt k j n + n = j + n * ((k - 1) / n) := by
  unfold verAt
  have hd := Nat.div_add_mod (k - 1) n
  have hmod := Nat.mod_lt (k - 1) hn
  have hq : 1 ≤ (k - 1) / n := by
    rw [Nat.one_le_div_iff hn]
    rcases le_or_lt n (k - 1) with h | h
    · exact h
    · rw [Nat.mod_eq_of_lt h] at hj1
      omega
  obtain ⟨c, hc⟩ : ∃ c, (k - 1) / n = c + 1 := ⟨(k - 1) / n - 1, by omega⟩
  rw [hc] at hd ⊢
  rw [Nat.mul_succ] at hd ⊢
  have hrw : k - 1 - j = (n + (k - 1) % n - j) + n * c := by omega
  rw [hrw, Nat.add_mul_div_left _ _ hn, Nat.div_eq_of_lt (by omega), Nat.zero_add]
  omega

theorem verAt_right_lt (k j n : Nat) (hn : 0 < n) (hj1 : (k - 1) % n < j) (hj2 : j < n)
    (hj3 : j ≤ k - 1) : verAt k j n < verAt k 0 n := by
  have h1 := verAt_right k j n hn hj1 hj2 hj3
  have h2 : verAt k 0 n = 0 + n * ((k - 1) / n) := verAt_left k 0 n hn (Nat.zero_le _)
  omega

theorem verAt_succ_self (k n : Nat) (hn : 0 < n) : verAt (k + 1) (k % n) n = k := by
  unfold verAt
  have hd := Nat.div_add_mod k n
  have hrw : k + 1 - 1 - k % n = 0 + n * (k / n) := by omega
  rw [hrw, Nat.add_mul_div_left _ _ hn, Nat.zero_div, Nat.zero_add]
  omega

theorem verAt_succ_other (k j n : Nat) (hn : 0 < n) (hj : j < n) (hne : j ≠ k % n)
    (hjk : j ≤ k - 1) (hk : 1 ≤ k) :
    verAt (k + 1) j n = verAt k j n := by
  have hdn := Nat.div_add_mod (k - j) n
  have hmodlt := Nat.mod_lt (k - j) hn
  have hmod : (k - j) % n ≠ 0 := by
    intro h0
    have hk2 : k = j + n * ((k - j) / n) := by omega
    have hmk : k % n = j := by
      rw [hk2, Nat.add_mul_mod_self_left, Nat.mod_eq_of_lt hj]
    exact hne hmk.symm
  have hdiv : (k - j) / n = (k - 1 - j) / n := by
    have hrw : k - 1 - j = ((k - j) % n - 1) + n * ((k - j) / n) := by omega
    rw [hrw, Nat.add_mul_div_left _ _ hn,
      Nat.div_eq_of_lt (lt_of_le_of_lt (Nat.sub_le _ _) hmodlt), Nat.zero_add]
  unfold verAt
  rw [show k + 1 - 1 - j = k - j by omega, hdiv]

theorem mod_succ_eq (k n : Nat) (hk : 1 ≤ k) (hn : 1 ≤ n) :
    k % n = if (k - 1) % n = n - 1 then 0 else (k - 1) % n + 1 := by
  have hd := Nat.div_add_mod (k - 1) n
  have hmod := Nat.mod_lt (k - 1) (show 0 < n by omega)
  split
  · next hr =>
    have hk2 : k = n * ((k - 1) / n + 1) := by rw [Nat.mul_succ]; omega
    rw [hk2, Nat.mul_mod_right]
  · next hr =>
    have hk2 : k = ((k - 1) % n + 1) + n * ((k - 1) / n) := by omega
    calc k % n = (((k - 1) % n + 1) + n * ((k - 1) / n)) % n := by rw [← hk2]
    _ = ((k - 1) % n + 1) % n := Nat.add_mul_mod_self_left _ _ _
    _ = (k - 1) % n + 1 := Nat.mod_eq_of_lt (by omega)

/-! ### The state invariant after k successful writes from a fresh format -/

/-- Headers of an `n`-slot ring after `k` successful writes from a fresh
format: slots below `min k n` hold their `verAt` version, the rest are
still erased. -/
def ringHeaders (cfg : Config) (n k : Nat) (st : Store) : Prop :=
  ∀ j : Nat, j < n →
    readVersion st cfg ((j : Int) * cfg.stride) =
      if j < min k n then verAt k j n else HEADER_INIT_VALUE32

/-- Invariant after `k ≥ 1` successful writes from a fresh format: the handle
carries exactly the writer's bookkeeping, the headers have the ring shape,
and the head slot's payload region starts with the bytes of the most recent
payload `p`. -/
def RingState (cfg : Config) (n k : Nat) (p : List Nat) (st : Store) (m : Metadata) :
    Prop :=
  m.toConfig = cfg ∧
  m.version = k - 1 ∧
  m.offset = (((k - 1) % n : Nat) : Int) * cfg.stride ∧
  m.empty = false ∧
  ringHeaders cfg n k st ∧
  storeRead st (cfg.baseAddress + m.offset + (HEADER_SIZE : Int)) p.length = p.map (· % 256)

/-! ### Unfolding the success path of `write` -/

theorem write_total_eq (st : Store) (m : Metadata) (q : List Nat)
    (hsz : (q.length : Int) + (HEADER_SIZE : Int) ≤ m.stride) :
    write totalWrite st m (some q) =
      (none,
       storeSet st (m.baseAddress + (if m.empty = true then m.offset
          else if m.offset + m.stride ≥ m.byteLength then 0 else m.offset + m.stride))
         (u32ToBytes (if m.empty = true then m.version else m.version + 1)
            m.littleEndian ++ q),
       { m with
         version := if m.empty = true then m.version else m.version + 1,
         offset := if m.empty = true then m.offset
            else if m.offset + m.stride ≥ m.byteLength then 0 else m.offset + m.stride,
         empty := false }) := by
  have hgt : ¬((q.length : Int) + (HEADER_SIZE : Int) > m.stride) := by omega
  by_cases he : m.empty = true <;>
    by_cases hw : m.offset + m.stride ≥ m.byteLength <;>
      simp [write, totalWrite, hgt, he, hw]

theorem write_config_frame (sw : StoreWrite) (st : Store) (m : Metadata)
    (buffer : Option (List Nat)) :
    ((write sw st m buffer).2.2).toConfig = m.toConfig := by
  unfold write
  match buffer with
  | none => rfl
  | some buf =>
    dsimp only
    split
    · rfl
    · cases hsw : sw st (m.baseAddress + (if m.empty = true then m.offset
        else if decide (m.offset + m.stride ≥ m.byteLength) then 0
        else m.offset + m.stride)) (u32ToBytes (if m.empty = true then m.version
          else m.version + 1) m.littleEndian ++ buf) with
      | none => simp [hsw]
      | some s1 => simp [hsw]

theorem HEADER_SIZE_int : ((HEADER_SIZE : Nat) : Int) = 4 := rfl

theorem storeRead_storeSet_header (st : Store) (a : Int) (hdr rest : List Nat)
    (hlen : hdr.length = 4) :
    storeRead (storeSet st a (hdr ++ rest)) a 4 = hdr.map (· % 256) := by
  have h := storeRead_storeSet_inside st a (hdr ++ rest) 0 4
    (by rw [List.length_append, hlen]; omega)
  simp only [Nat.cast_zero, add_zero, List.drop_zero] at h
  rw [h, ← hlen, List.take_left]

theorem storeRead_storeSet_payload (st : Store) (a : Int) (hdr rest : List Nat)
    (hlen : hdr.length = 4) :
    storeRead (storeSet st a (hdr ++ rest)) (a + 4) rest.length = rest.map (· % 256) := by
  have h := storeRead_storeSet_inside st a (hdr ++ rest) 4 rest.length
    (by rw [List.length_append, hlen])
  rw [show ((4 : Nat) : Int) = (4 : Int) from rfl] at h
  rw [h, ← hlen, List.drop_left, List.take_length]

/-! ### One successful write preserves the ring invariant -/

theorem RingState_write (cfg : Config) (sN nN k : Nat) (p q : List Nat)
    (st : Store) (m : Metadata)
    (hs : cfg.stride = (sN : Int)) (hL : cfg.byteLength = ((nN * sN : Nat) : Int))
    (h4 : 4 ≤ sN) (hn : 1 ≤ nN)
    (hk : 1 ≤ k) (hk32 : k ≤ 4294967294)
    (hq : (q.length : Int) + (HEADER_SIZE : Int) ≤ cfg.stride)
    (hRS : RingState cfg nN k p st m) :
    (write totalWrite st m (some q)).1 = none ∧
    RingState cfg nN (k + 1) q (write totalWrite st m (some q)).2.1
      (write totalWrite st m (some q)).2.2 := by
  obtain ⟨hcfg, hver, hoff, hemp, hheads, hpay⟩ := hRS
  have hb : m.baseAddress = cfg.baseAddress := by rw [hcfg]
  have hstr : m.stride = cfg.stride := by rw [hcfg]
  have hbl : m.byteLength = cfg.byteLength := by rw [hcfg]
  have hle : m.littleEndian = cfg.littleEndian := by rw [hcfg]
  have hnpos : 0 < nN := hn
  have hspos : 0 < sN := by omega
  have hhlt : (k - 1) % nN < nN := Nat.mod_lt _ hnpos
  have hklt : k % nN < nN := Nat.mod_lt _ hnpos
  have hkle : k % nN ≤ k := Nat.mod_le _ _
  have hqlen : q.length + 4 ≤ sN := by
    rw [hs, HEADER_SIZE_int] at hq
    exact_mod_cast hq
  have hoffeq : (if m.offset + m.stride ≥ m.byteLength then 0
        else m.offset + m.stride)
      = ((k % nN : Nat) : Int) * cfg.stride := by
    rw [hoff, hstr, hbl, hs, hL, mod_succ_eq k nN hk hn]
    by_cases hwrap : (k - 1) % nN = nN - 1
    · rw [if_pos hwrap, if_pos]
      · simp
      · rw [hwrap]
        have hNat : nN * sN ≤ (nN - 1) * sN + sN := by
          have h1 : nN * sN = (nN - 1) * sN + sN := by
            calc nN * sN = (nN - 1 + 1) * sN := by rw [show nN - 1 + 1 = nN from by omega]
            _ = (nN - 1) * sN + sN := Nat.succ_mul _ _
          omega
        exact_mod_cast hNat
    · rw [if_neg hwrap, if_neg]
      · exact_mod_cast (Nat.succ_mul ((k - 1) % nN) sN).symm
      · rw [not_le]
        have hNat : ((k - 1) % nN) * sN + sN < nN * sN := by
          have h1 : ((k - 1) % nN) * sN ≤ (nN - 2) * sN :=
            Nat.mul_le_mul_right _ (by omega)
          have h2 : (nN - 2) * sN + sN + sN = nN * sN := by
            calc (nN - 2) * sN + sN + sN = ((nN - 2) + 1) * sN + sN := by
                  rw [Nat.succ_mul]
            _ = ((nN - 2) + 1 + 1) * sN := by rw [Nat.succ_mul ((nN - 2) + 1)]
            _ = nN * sN := by rw [show nN - 2 + 1 + 1 = nN from by omega]
          omega
        exact_mod_cast hNat
  have hwexp := write_total_eq st m q (by rw [hstr]; exact hq)
  rw [hemp] at hwexp
  simp only [Bool.false_eq_true, if_false] at hwexp
  rw [hoffeq, hver, hb, hle, show k - 1 + 1 = k from by omega] at hwexp
  rw [hwexp]
  refine ⟨rfl, hcfg, rfl, rfl, rfl, ?_, ?_⟩
  · -- headers of the new store
    intro j hj
    unfold readVersion
    rw [show HEADER_SIZE = 4 from rfl]
    by_cases hjj : j = k % nN
    · subst hjj
      rw [storeRead_storeSet_header st _ _ q (length_u32ToBytes _ _),
        u32ToBytes_map_mod, bytesToU32_u32ToBytes,
        Nat.mod_eq_of_lt (by omega : k < 4294967296),
        if_pos (by omega : k % nN < min (k + 1) nN)]
      exact (verAt_succ_self k nN hnpos).symm
    · rw [storeRead_storeSet_outside]
      · have hold := hheads j hj
        unfold readVersion at hold
        rw [show HEADER_SIZE = 4 from rfl] at hold
        rw [hold]
        rcases le_or_lt nN k with hkn | hkn
        · -- every slot written: both sides in the verAt branch
          rw [if_pos (by omega), if_pos (by omega)]
          exact (verAt_succ_other k j nN hnpos hj hjj (by omega) hk).symm
        · -- k < nN, so k % nN = k
          have hkk : k % nN = k := Nat.mod_eq_of_lt hkn
          rw [hkk] at hjj
          rcases lt_or_gt_of_ne hjj with hlt | hgt
          · rw [if_pos (by omega), if_pos (by omega)]
            exact (verAt_succ_other k j nN hnpos hj (by omega) (by omega) hk).symm
          · rw [if_neg (by omega), if_neg (by omega)]
      · -- the header of slot j is disjoint from the written block
        rw [List.length_append, length_u32ToBytes, hs]
        rcases lt_or_gt_of_ne hjj with hlt | hgt
        · left
          have hNat : j * sN + 4 ≤ (k % nN) * sN := by
            have h1 : (j + 1) * sN ≤ (k % nN) * sN :=
              Nat.mul_le_mul_right _ (by omega)
            have h2 : (j + 1) * sN = j * sN + sN := Nat.succ_mul _ _
            omega
          have hInt : ((j * sN + 4 : Nat) : Int) ≤ (((k % nN) * sN : Nat) : Int) :=
            Int.ofNat_le.mpr hNat
          rw [Nat.cast_add, Nat.cast_mul, Nat.cast_mul] at hInt
          omega
        · right
          have hNat : (k % nN) * sN + (4 + q.length) ≤ j * sN := by
            have h1 : (k % nN + 1) * sN ≤ j * sN :=
              Nat.mul_le_mul_right _ (by omega)
            have h2 : (k % nN + 1) * sN = (k % nN) * sN + sN := Nat.succ_mul _ _
            omega
          have hInt : (((k % nN) * sN + (4 + q.length) : Nat) : Int)
              ≤ ((j * sN : Nat) : Int) := Int.ofNat_le.mpr hNat
          rw [Nat.cast_add, Nat.cast_add, Nat.cast_mul, Nat.cast_mul] at hInt
          omega
  · -- payload region of the new head slot
    show storeRead _ (cfg.baseAddress + ((k % nN : Nat) : Int) * cfg.stride
        + ((HEADER_SIZE : Nat) : Int)) q.length = q.map (· % 256)
    rw [HEADER_SIZE_int]
    exact storeRead_storeSet_payload st _ _ q (length_u32ToBytes _ _)

/-- The metadata produced by `init` over a freshly formatted store. -/
def freshMeta (cfg : Config) : Metadata :=
  { toConfig := cfg, version := 0, offset := 0, empty := true }

/-- The store contents after `format` with `totalWrite`. -/
def formattedStore (s0 : Store) (cfg : Config) : Store :=
  storeSet s0 cfg.baseAddress (List.replicate cfg.byteLength.toNat HEADER_INIT_VALUE8)

theorem RingState_first (cfg : Config) (sN nN : Nat) (q : List Nat) (s0 : Store)
    (hs : cfg.stride = (sN : Int)) (hL : cfg.byteLength = ((nN * sN : Nat) : Int))
    (h4 : 4 ≤ sN) (hn : 1 ≤ nN)
    (hq : (q.length : Int) + (HEADER_SIZE : Int) ≤ cfg.stride) :
    (write totalWrite (formattedStore s0 cfg) (freshMeta cfg) (some q)).1 = none ∧
    RingState cfg nN 1 q
      (write totalWrite (formattedStore s0 cfg) (freshMeta cfg) (some q)).2.1
      (write totalWrite (formattedStore s0 cfg) (freshMeta cfg) (some q)).2.2 := by
  have hLtoNat : cfg.byteLength.toNat = nN * sN := by rw [hL]; exact Int.toNat_natCast _
  have hwexp := write_total_eq (formattedStore s0 cfg) (freshMeta cfg) q hq
  rw [show (freshMeta cfg).empty = true from rfl] at hwexp
  simp only [if_true, eq_self_iff_true] at hwexp
  rw [show (freshMeta cfg).version = 0 from rfl,
    show (freshMeta cfg).offset = 0 from rfl,
    show (freshMeta cfg).baseAddress = cfg.baseAddress from rfl,
    show (freshMeta cfg).littleEndian = cfg.littleEndian from rfl] at hwexp
  rw [hwexp]
  refine ⟨rfl, rfl, rfl, by simp, rfl, ?_, ?_⟩
  · -- headers after the first write
    intro j hj
    unfold readVersion
    rw [show HEADER_SIZE = 4 from rfl]
    rcases Nat.eq_zero_or_pos j with hj0 | hjpos
    · subst hj0
      simp only [Nat.cast_zero, zero_mul, add_zero]
      unfold formattedStore
      rw [storeRead_storeSet_header _ _ _ q (length_u32ToBytes _ _),
        u32ToBytes_map_mod, bytesToU32_u32ToBytes]
      rw [if_pos (by omega : 0 < min 1 nN)]
      unfold verAt
      simp
    · rw [storeRead_storeSet_outside]
      · unfold formattedStore
        rw [hs, storeRead_formatted s0 _ _ _ 4
            (by
              have hpos : (0 : Int) ≤ ((j : Nat) : Int) * ((sN : Nat) : Int) := by
                positivity
              omega)
            (by
              rw [hLtoNat]
              have hNat : j * sN + 4 ≤ nN * sN := by
                have h1 : (j + 1) * sN ≤ nN * sN := Nat.mul_le_mul_right _ (by omega)
                have h2 : (j + 1) * sN = j * sN + sN := Nat.succ_mul _ _
                omega
              have hInt : ((j * sN + 4 : Nat) : Int) ≤ ((nN * sN : Nat) : Int) :=
                Int.ofNat_le.mpr hNat
              rw [Nat.cast_add, Nat.cast_mul] at hInt
              omega)]
        rw [bytesToU32_replicate_ff, if_neg (by omega : ¬ j < min 1 nN)]
      · right
        rw [List.length_append, length_u32ToBytes, hs]
        have hqlen : q.length + 4 ≤ sN := by
          rw [hs, HEADER_SIZE_int] at hq
          exact_mod_cast hq
        have hNat : sN ≤ j * sN := by
          have := Nat.mul_le_mul_right sN (show 1 ≤ j from hjpos)
          omega
        have hInt : ((sN : Nat) : Int) ≤ ((j * sN : Nat) : Int) := Int.ofNat_le.mpr hNat
        rw [Nat.cast_mul] at hInt
        omega
  · -- payload of slot 0
    show storeRead _ (cfg.baseAddress + 0 + ((HEADER_SIZE : Nat) : Int)) q.length
        = q.map (· % 256)
    rw [HEADER_SIZE_int]
    exact storeRead_storeSet_payload _ _ _ q (length_u32ToBytes _ _)

theorem RingState_writeMany (cfg : Config) (sN nN : Nat)
    (hs : cfg.stride = (sN : Int)) (hL : cfg.byteLength = ((nN * sN : Nat) : Int))
    (h4 : 4 ≤ sN) (hn : 1 ≤ nN) :
    ∀ (ps : List (List Nat)) (k : Nat) (p : List Nat) (st : Store) (m : Metadata),
    RingState cfg nN k p st m → 1 ≤ k → k + ps.length ≤ 4294967295 →
    (∀ q ∈ ps, (q.length : Int) + (HEADER_SIZE : Int) ≤ cfg.stride) →
    RingState cfg nN (k + ps.length) (ps.getLastD p)
      (writeMany ps st m).1 (writeMany ps st m).2 := by
  intro ps
  induction ps with
  | nil =>
    intro k p st m hRS hk _ _
    simpa [writeMany] using hRS
  | cons q rest ih =>
    intro k p st m hRS hk hbound hval
    have hstep := RingState_write cfg sN nN k p q st m hs hL h4 hn hk
      (by simp at hbound; omega) (hval q (List.mem_cons_self _ _)) hRS
    have hunf : writeMany (q :: rest) st m
        = writeMany rest (write totalWrite st m (some q)).2.1
            (write totalWrite st m (some q)).2.2 := by
      unfold writeMany
      rw [List.foldl_cons]
    rw [hunf, List.getLastD_cons,
      show k + (q :: rest).length = (k + 1) + rest.length from by simp; omega]
    exact ih (k + 1) q _ _ hstep.2 (by omega) (by simp at hbound ⊢; omega)
      (fun q' hq' => hval q' (List.mem_cons_of_mem _ hq'))

theorem readVersion_formatted_zero (cfg : Config) (s0 : Store)
    (h4 : (4 : Int) ≤ cfg.byteLength) :
    readVersion (formattedStore s0 cfg) cfg 0 = HEADER_INIT_VALUE32 := by
  unfold readVersion formattedStore
  rw [add_zero, show HEADER_SIZE = 4 from rfl,
    storeRead_formatted s0 _ _ _ 4 (le_refl _) (by omega)]
  exact bytesToU32_replicate_ff _

theorem init_formatted (cfg : Config) (s0 : Store)
    (hstride : (1 : Int) ≤ cfg.stride) (h4 : (4 : Int) ≤ cfg.byteLength) :
    init (formattedStore s0 cfg) cfg = some (freshMeta cfg) := by
  have h0 := readVersion_formatted_zero cfg s0 h4
  unfold init search
  by_cases hfs : cfg.fullScan = true
  · rw [if_pos hfs]
    unfold search_linear
    obtain ⟨cnt, hcnt⟩ : ∃ cnt, rangeLen 0 (cfg.byteLength - 1) cfg.stride = cnt + 1 := by
      rw [rangeLen_of_le _ _ _ (by omega) (by omega)]
      exact ⟨_, rfl⟩
    unfold range
    rw [hcnt, List.range_succ_eq_map, List.map_cons]
    unfold searchLinearGo
    simp only [Nat.cast_zero, zero_mul, add_zero]
    rw [h0, if_pos rfl]
    rfl
  · rw [if_neg hfs]
    unfold search_binary
    rw [h0, if_pos rfl]
    rfl

/-! ### Correctness of the binary head finder on a rotated-increasing ring -/

theorem searchBinaryGo_ring (st : Store) (cfg : Config) (V : Nat → Nat) (n h : Nat)
    (hV : ∀ p : Nat, p < n → readVersion st cfg ((p : Int) * cfg.stride) = V p)
    (hne : ∀ j : Nat, j ≤ h → V j ≠ HEADER_INIT_VALUE32)
    (hmono : ∀ i j : Nat, i < j → j ≤ h → V i < V j)
    (hright : ∀ j : Nat, h < j → j < n → V j < V 0 ∨ V j = HEADER_INIT_VALUE32) :
    ∀ (fuel a e sv : Nat),
      a ≤ h → h ≤ e → e < n → sv = V a → e - a < fuel →
      ∃ log, searchBinaryGo st cfg fuel (a : Int) (e : Int) sv
          = some (⟨V h, (h : Int) * cfg.stride, false⟩, log) := by
  have hmono' : ∀ i j : Nat, i ≤ j → j ≤ h → V i ≤ V j := by
    intro i j hij hjh
    rcases Nat.eq_or_lt_of_le hij with hc | hc
    · rw [hc]
    · exact le_of_lt (hmono _ _ hc hjh)
  intro fuel
  induction fuel with
  | zero => intro a e sv _ _ _ _ hf; omega
  | succ fuel ih =>
    intro a e sv hah hhe hen hsv hf
    simp only [searchBinaryGo]
    by_cases hae : (a : Int) = (e : Int)
    · have hae' : a = e := by exact_mod_cast hae
      have hha : h = a := by omega
      rw [if_pos hae]
      exact ⟨[], by rw [hsv, hha]⟩
    · have haeN : a < e := by
        have hne' : a ≠ e := fun hc => hae (by exact_mod_cast hc)
        omega
      rw [if_neg hae]
      have hpiv : ((a : Int) + (e : Int)) / 2 = (((a + e) / 2 : Nat) : Int) := by
        exact_mod_cast rfl
      rw [hpiv]
      have hpa : a ≤ (a + e) / 2 := by omega
      have hpe : (a + e) / 2 < e := by omega
      have hpn : (a + e) / 2 < n := by omega
      rw [hV _ hpn]
      by_cases hph : (a + e) / 2 ≤ h
      · -- the pivot is inside the newer run: never pivot left
        rw [if_neg (by
          push_neg
          constructor
          · rw [hsv]; exact hmono' _ _ hpa hph
          · exact hne _ hph)]
        have hp1n : (a + e) / 2 + 1 < n := by omega
        have hcast1 : (((a + e) / 2 : Nat) : Int) + 1 = (((a + e) / 2 + 1 : Nat) : Int) := by
          omega
        rw [hcast1, hV _ hp1n]
        by_cases hph2 : (a + e) / 2 = h
        · -- the pivot is the head: its successor is older or erased
          have hsucc : V ((a + e) / 2 + 1) < V ((a + e) / 2)
              ∨ V ((a + e) / 2 + 1) = HEADER_INIT_VALUE32 := by
            rcases hright ((a + e) / 2 + 1) (by omega) (by omega) with hc | hc
            · left
              calc V ((a + e) / 2 + 1) < V 0 := hc
              _ ≤ V ((a + e) / 2) := hmono' _ _ (Nat.zero_le _) hph
            · right; exact hc
          rw [if_pos (by
            rcases hsucc with hc | hc
            · exact Or.inl hc
            · exact Or.inr hc)]
          exact ⟨_, by rw [hph2]⟩
        · -- pivot strictly below the head: pivot right
          have hps : (a + e) / 2 + 1 ≤ h := by omega
          rw [if_neg (by
            push_neg
            constructor
            · exact le_of_lt (hmono _ _ (by omega) hps)
            · exact hne _ hps)]
          obtain ⟨log, hlog⟩ := ih ((a + e) / 2 + 1) e (V ((a + e) / 2 + 1))
            hps hhe hen rfl (by omega)
          rw [hlog]
          exact ⟨_, rfl⟩
      · -- the pivot is past the head: pivot left
        push_neg at hph
        have hcond : V ((a + e) / 2) < sv ∨ V ((a + e) / 2) = HEADER_INIT_VALUE32 := by
          rcases hright ((a + e) / 2) hph hpn with hc | hc
          · left
            rw [hsv]
            calc V ((a + e) / 2) < V 0 := hc
            _ ≤ V a := hmono' _ _ (Nat.zero_le _) hah
          · right; exact hc
        rw [if_pos hcond]
        have hp1 : 1 ≤ (a + e) / 2 := by omega
        have hcast2 : (((a + e) / 2 : Nat) : Int) - 1 = (((a + e) / 2 - 1 : Nat) : Int) := by
          omega
        rw [hcast2]
        obtain ⟨log, hlog⟩ := ih a ((a + e) / 2 - 1) sv hah (by omega) (by omega) hsv
          (by omega)
        rw [hlog]
        exact ⟨_, rfl⟩

/-! ### Termination and read bounds of the binary search on any store -/

theorem searchBinaryGo_total (st : Store) (cfg : Config) (n : Nat) :
    ∀ (fuel a e : Nat),
      a ≤ e → e < n →
      readVersion st cfg ((a : Int) * cfg.stride) ≠ HEADER_INIT_VALUE32 →
      e - a < fuel →
      ∃ r log, searchBinaryGo st cfg fuel (a : Int) (e : Int)
          (readVersion st cfg ((a : Int) * cfg.stride)) = some (r, log) ∧
        ∀ x ∈ log, 0 ≤ x ∧ x < (n : Int) := by
  intro fuel
  induction fuel with
  | zero => intro a e _ _ _ hf; omega
  | succ fuel ih =>
    intro a e hae hen hva hf
    simp only [searchBinaryGo]
    by_cases haeI : (a : Int) = (e : Int)
    · rw [if_pos haeI]
      exact ⟨_, [], rfl, by intro x hx; cases hx⟩
    · have haeN : a < e := by
        have hne' : a ≠ e := fun hc => haeI (by exact_mod_cast hc)
        omega
      rw [if_neg haeI]
      have hpiv : ((a : Int) + (e : Int)) / 2 = (((a + e) / 2 : Nat) : Int) := by
        exact_mod_cast rfl
      rw [hpiv]
      have hpa : a ≤ (a + e) / 2 := by omega
      have hpe : (a + e) / 2 < e := by omega
      by_cases hc : readVersion st cfg ((((a + e) / 2 : Nat) : Int) * cfg.stride)
            < readVersion st cfg ((a : Int) * cfg.stride)
          ∨ readVersion st cfg ((((a + e) / 2 : Nat) : Int) * cfg.stride)
            = HEADER_INIT_VALUE32
      · -- pivot left; the pivot cannot be the left end itself
        have hpgt : a < (a + e) / 2 := by
          rcases Nat.eq_or_lt_of_le hpa with hpa' | hpa'
          · exfalso
            rw [← hpa'] at hc
            rcases hc with hc1 | hc1
            · exact lt_irrefl _ hc1
            · exact hva hc1
          · exact hpa'
        rw [if_pos hc]
        have hcast : (((a + e) / 2 : Nat) : Int) - 1 = (((a + e) / 2 - 1 : Nat) : Int) := by
          omega
        rw [hcast]
        obtain ⟨r, log, hlog, hbnd⟩ := ih a ((a + e) / 2 - 1) (by omega) (by omega) hva
          (by omega)
        refine ⟨r, _, by rw [hlog]; rfl, ?_⟩
        intro x hx
        rcases List.mem_cons.mp hx with hx1 | hx1
        · subst hx1
          constructor
          · positivity
          · exact_mod_cast lt_trans hpe hen
        · exact hbnd x hx1
      · rw [if_neg hc]
        have hcast1 : (((a + e) / 2 : Nat) : Int) + 1 = (((a + e) / 2 + 1 : Nat) : Int) := by
          omega
        rw [hcast1]
        by_cases hd : readVersion st cfg ((((a + e) / 2 : Nat) : Int) * cfg.stride)
              > readVersion st cfg ((((a + e) / 2 + 1 : Nat) : Int) * cfg.stride)
            ∨ readVersion st cfg ((((a + e) / 2 + 1 : Nat) : Int) * cfg.stride)
              = HEADER_INIT_VALUE32
        · rw [if_pos hd]
          refine ⟨_, _, rfl, ?_⟩
          intro x hx
          rcases List.mem_cons.mp hx with hx1 | hx1
          · subst hx1
            constructor
            · positivity
            · exact_mod_cast lt_trans hpe hen
          · rcases List.mem_cons.mp hx1 with hx2 | hx2
            · subst hx2
              constructor
              · positivity
              · exact_mod_cast lt_of_le_of_lt (by omega : (a + e) / 2 + 1 ≤ e) hen
            · cases hx2
        · rw [if_neg hd]
          push_neg at hd
          obtain ⟨r, log, hlog, hbnd⟩ := ih ((a + e) / 2 + 1) e (by omega) hen hd.2
            (by omega)
          refine ⟨r, _, by rw [hlog]; rfl, ?_⟩
          intro x hx
          rcases List.mem_cons.mp hx with hx1 | hx1
          · subst hx1
            constructor
            · positivity
            · exact_mod_cast lt_trans hpe hen
          · rcases List.mem_cons.mp hx1 with hx2 | hx2
            · subst hx2
              constructor
              · positivity
              · exact_mod_cast lt_of_le_of_lt (by omega : (a + e) / 2 + 1 ≤ e) hen
            · exact hbnd x hx2

theorem search_binary_total (st : Store) (cfg : Config)
    (hn : 1 ≤ cfg.byteLength / cfg.stride)
    (h0 : readVersion st cfg 0 ≠ HEADER_INIT_VALUE32) :
    ∃ r log, search_binary st cfg = some (r, log) ∧
      ∀ x ∈ log, 0 ≤ x ∧ x ≤ cfg.byteLength / cfg.stride - 1 := by
  unfold search_binary
  rw [if_neg h0]
  have hcast : cfg.byteLength / cfg.stride - 1
      = (((cfg.byteLength / cfg.stride).toNat - 1 : Nat) : Int) := by
    omega
  dsimp only
  rw [hcast]
  have h0' : readVersion st cfg (((0 : Nat) : Int) * cfg.stride)
      ≠ HEADER_INIT_VALUE32 := by
    rw [Nat.cast_zero, zero_mul]
    exact h0
  obtain ⟨r, log, hlog, hbnd⟩ := searchBinaryGo_total st cfg
    (cfg.byteLength / cfg.stride).toNat (cfg.byteLength / cfg.stride).toNat
    0 ((cfg.byteLength / cfg.stride).toNat - 1) (by omega) (by omega) h0' (by omega)
  rw [Nat.cast_zero, zero_mul] at hlog
  rw [hlog]
  refine ⟨r, 0 :: log, rfl, ?_⟩
  intro x hx
  rcases List.mem_cons.mp hx with hx1 | hx1
  · subst hx1
    omega
  · have := hbnd x hx1
    omega

/-- The slot-version function of a ring after `k` writes. -/
def ringV (k n : Nat) : Nat → Nat := fun j =>
  if j < min k n then verAt k j n else HEADER_INIT_VALUE32

theorem search_binary_ring (cfg : Config) (sN nN k : Nat) (st : Store)
    (hs : cfg.stride = (sN : Int)) (hL : cfg.byteLength = ((nN * sN : Nat) : Int))
    (h4 : 4 ≤ sN) (hn : 1 ≤ nN) (hk : 1 ≤ k) (hk32 : k ≤ 4294967295)
    (hheads : ringHeaders cfg nN k st) :
    ∃ log, search_binary st cfg
      = some (⟨k - 1, (((k - 1) % nN : Nat) : Int) * cfg.stride, false⟩, log) := by
  have hhlt : (k - 1) % nN < nN := Nat.mod_lt _ hn
  have hhk : (k - 1) % nN ≤ k - 1 := Nat.mod_le _ _
  have hmin : (k - 1) % nN < min k nN := by omega
  have hne : ∀ j : Nat, j ≤ (k - 1) % nN → ringV k nN j ≠ HEADER_INIT_VALUE32 := by
    intro j hj
    unfold ringV
    rw [if_pos (by omega)]
    have := verAt_le k j nN (by omega)
    unfold HEADER_INIT_VALUE32
    omega
  have hmono : ∀ i j : Nat, i < j → j ≤ (k - 1) % nN →
      ringV k nN i < ringV k nN j := by
    intro i j hij hj
    unfold ringV
    rw [if_pos (by omega), if_pos (by omega)]
    rw [verAt_left k i nN hn (by omega), verAt_left k j nN hn (by omega)]
    omega
  have hright : ∀ j : Nat, (k - 1) % nN < j → j < nN →
      ringV k nN j < ringV k nN 0 ∨ ringV k nN j = HEADER_INIT_VALUE32 := by
    intro j hj1 hj2
    unfold ringV
    by_cases hjw : j < min k nN
    · left
      rw [if_pos hjw, if_pos (by omega)]
      exact verAt_right_lt k j nN hn hj1 hj2 (by omega)
    · right
      rw [if_neg hjw]
  have hV : ∀ p : Nat, p < nN →
      readVersion st cfg ((p : Int) * cfg.stride) = ringV k nN p := by
    intro p hp
    exact hheads p hp
  have hslot : cfg.byteLength / cfg.stride = (nN : Int) := by
    rw [hL, hs]
    rw [show ((nN * sN : Nat) : Int) = ((nN : Nat) : Int) * ((sN : Nat) : Int) from by
      push_cast; ring]
    rw [Int.mul_ediv_cancel _ (by omega)]
  obtain ⟨log, hlog⟩ := searchBinaryGo_ring st cfg (ringV k nN) nN ((k - 1) % nN)
    hV hne hmono hright nN 0 (nN - 1) (readVersion st cfg 0)
    (by omega) (by omega) (by omega)
    (by
      have := hV 0 (by omega)
      rw [Nat.cast_zero, zero_mul] at this
      exact this)
    (by omega)
  unfold search_binary
  rw [if_neg (by
    have := hV 0 (by omega)
    rw [Nat.cast_zero, zero_mul] at this
    rw [this]
    exact hne 0 (Nat.zero_le _))]
  dsimp only
  rw [hslot]
  rw [show (nN : Int) - 1 = ((nN - 1 : Nat) : Int) from by omega]
  rw [show ((nN : Int)).toNat = nN from by omega]
  rw [Nat.cast_zero] at hlog
  rw [hlog]
  refine ⟨0 :: log, ?_⟩
  have hVh : ringV k nN ((k - 1) % nN) = k - 1 := by
    unfold ringV
    rw [if_pos hmin]
    exact verAt_head k nN hn hk
  rw [hVh]
  rfl

/-! ### Correctness of the linear head finder on a rotated-increasing ring -/

theorem searchLinearGo_ring (st : Store) (cfg : Config) (sI : Int) (V : Nat → Nat)
    (n h W : Nat)
    (hV : ∀ p : Nat, p < n → readVersion st cfg ((p : Int) * sI) = V p)
    (hW : h < W) (hWn : W ≤ n)
    (hne : ∀ j : Nat, j < W → V j ≠ HEADER_INIT_VALUE32)
    (herased : ∀ j : Nat, W ≤ j → j < n → V j = HEADER_INIT_VALUE32)
    (hmono : ∀ i j : Nat, i < j → j ≤ h → V i < V j)
    (hright : ∀ j : Nat, h < j → j < W → V j < V 0) :
    ∀ (c t : Nat) (r : SearchResult), t + c = n → t ≤ W →
      ((t = 0 ∧ r = ⟨0, 0, true⟩) ∨
        (1 ≤ t ∧ r = ⟨V (min (t - 1) h), ((min (t - 1) h : Nat) : Int) * sI, false⟩)) →
      searchLinearGo st cfg ((List.range' t c).map (fun j => ((j : Nat) : Int) * sI)) r
        = ⟨V h, (h : Int) * sI, false⟩ := by
  have hmono' : ∀ i j : Nat, i ≤ j → j ≤ h → V i ≤ V j := by
    intro i j hij hjh
    rcases Nat.eq_or_lt_of_le hij with hc | hc
    · rw [hc]
    · exact le_of_lt (hmono _ _ hc hjh)
  intro c
  induction c with
  | zero =>
    intro t r htc htW hr
    simp only [List.range', List.map_nil]
    unfold searchLinearGo
    rcases hr with ⟨ht0, hr⟩ | ⟨ht1, hr⟩
    · omega
    · have htn : t = n := by omega
      have hWeq : W = n := by omega
      have hmin : min (t - 1) h = h := by omega
      rw [hr, hmin]
  | succ c ih =>
    intro t r htc htW hr
    rw [List.range'_succ, List.map_cons]
    unfold searchLinearGo
    rw [hV t (by omega)]
    rcases Nat.lt_or_ge t W with htw | htw
    · -- slot t holds a live version
      rw [if_neg (hne t htw)]
      rcases hr with ⟨ht0, hr⟩ | ⟨ht1, hr⟩
      · subst ht0
        rw [hr, if_pos (Or.inr rfl)]
        exact ih 1 _ (by omega) (by omega)
          (Or.inr ⟨le_refl _, by rw [show (1 - 1) ⊓ h = 0 from by omega, Nat.cast_zero]⟩)
      · rcases Nat.lt_or_ge h t with hth | hth
        · -- past the head: the candidate never improves
          have hmin : min (t - 1) h = h := by omega
          rw [hr, hmin, if_neg (by
            simp only [Bool.false_eq_true, or_false]
            have h1 : V t < V 0 := hright t hth htw
            have h2 : V 0 ≤ V h := hmono' 0 h (Nat.zero_le _) (le_refl _)
            omega)]
          exact ih (t + 1) _ (by omega) (by omega)
            (Or.inr ⟨by omega, by rw [show (t + 1 - 1) ⊓ h = h from by omega]⟩)
        · -- still inside the increasing run: the candidate improves
          have hmin : min (t - 1) h = t - 1 := by omega
          rw [hr, hmin, if_pos (Or.inl (by
            show V (t - 1) < V t
            exact hmono (t - 1) t (by omega) hth))]
          exact ih (t + 1) _ (by omega) (by omega)
            (Or.inr ⟨by omega, by rw [show (t + 1 - 1) ⊓ h = t from by omega]⟩)
    · -- slot t is erased: the scan stops with the current candidate
      have htW' : t = W := by omega
      rw [if_pos (herased t htw (by omega))]
      rcases hr with ⟨ht0, hr⟩ | ⟨ht1, hr⟩
      · omega
      · have hmin : min (t - 1) h = h := by omega
        rw [hr, hmin]

theorem search_linear_ring (cfg : Config) (sN nN k : Nat) (st : Store)
    (hs : cfg.stride = (sN : Int)) (hL : cfg.byteLength = ((nN * sN : Nat) : Int))
    (h4 : 4 ≤ sN) (hn : 1 ≤ nN) (hk : 1 ≤ k) (hk32 : k ≤ 4294967295)
    (hheads : ringHeaders cfg nN k st) :
    search_linear st cfg
      = ⟨k - 1, (((k - 1) % nN : Nat) : Int) * cfg.stride, false⟩ := by
  have hhlt : (k - 1) % nN < nN := Nat.mod_lt _ hn
  have hhk : (k - 1) % nN ≤ k - 1 := Nat.mod_le _ _
  have hmin : (k - 1) % nN < min k nN := by omega
  unfold search_linear
  rw [hL, hs, range_ring sN nN (by omega) hn, List.range_eq_range']
  have hres := searchLinearGo_ring st cfg (sN : Int) (ringV k nN) nN
    ((k - 1) % nN) (min k nN)
    (by
      intro p hp
      have := hheads p hp
      rw [hs] at this
      exact this)
    hmin (by omega)
    (by
      intro j hj
      unfold ringV
      rw [if_pos hj]
      have := verAt_le k j nN (by omega)
      unfold HEADER_INIT_VALUE32
      omega)
    (by
      intro j hj1 hj2
      unfold ringV
      rw [if_neg (by omega)])
    (by
      intro i j hij hj
      unfold ringV
      rw [if_pos (by omega), if_pos (by omega)]
      rw [verAt_left k i nN hn (by omega), verAt_left k j nN hn (by omega)]
      omega)
    (by
      intro j hj1 hj2
      unfold ringV
      rw [if_pos (by omega), if_pos (by omega)]
      exact verAt_right_lt k j nN hn hj1 (by omega) (by omega))
    nN 0 ⟨0, 0, true⟩ (by omega) (by omega) (Or.inl ⟨rfl, rfl⟩)
  rw [hres]
  have hVh : ringV k nN ((k - 1) % nN) = k - 1 := by
    unfold ringV
    rw [if_pos hmin]
    exact verAt_head k nN hn hk
  rw [hVh]

theorem search_binary_formatted (cfg : Config) (s0 : Store)
    (h4 : (4 : Int) ≤ cfg.byteLength) :
    search_binary (formattedStore s0 cfg) cfg = some (⟨0, 0, true⟩, [0]) := by
  unfold search_binary
  rw [readVersion_formatted_zero cfg s0 h4, if_pos rfl]

theorem search_linear_formatted (cfg : Config) (s0 : Store)
    (hstride : (1 : Int) ≤ cfg.stride) (h4 : (4 : Int) ≤ cfg.byteLength) :
    search_linear (formattedStore s0 cfg) cfg = ⟨0, 0, true⟩ := by
  have h0 := readVersion_formatted_zero cfg s0 h4
  unfold search_linear
  obtain ⟨cnt, hcnt⟩ : ∃ cnt, rangeLen 0 (cfg.byteLength - 1) cfg.stride = cnt + 1 := by
    rw [rangeLen_of_le _ _ _ (by omega) (by omega)]
    exact ⟨_, rfl⟩
  unfold range
  rw [hcnt, List.range_succ_eq_map, List.map_cons]
  unfold searchLinearGo
  simp only [Nat.cast_zero, zero_mul, add_zero]
  rw [h0, if_pos rfl]

/-! ### Pipeline: format, init, then a non-empty run of successful writes -/

theorem RingState_pipeline (cfg : Config) (sN nN : Nat) (s0 : Store)
    (p0 : List Nat) (ps : List (List Nat))
    (hs : cfg.stride = (sN : Int)) (hL : cfg.byteLength = ((nN * sN : Nat) : Int))
    (h4 : 4 ≤ sN) (hn : 1 ≤ nN)
    (hval : ∀ q ∈ p0 :: ps, (q.length : Int) + (HEADER_SIZE : Int) ≤ cfg.stride)
    (hbound : 1 + ps.length ≤ 4294967295) :
    RingState cfg nN (1 + ps.length) ((p0 :: ps).getLastD [])
      (writeMany (p0 :: ps) (formattedStore s0 cfg) (freshMeta cfg)).1
      (writeMany (p0 :: ps) (formattedStore s0 cfg) (freshMeta cfg)).2 := by
  have hfirst := RingState_first cfg sN nN p0 s0 hs hL h4 hn
    (hval p0 (List.mem_cons_self _ _))
  have hunf : writeMany (p0 :: ps) (formattedStore s0 cfg) (freshMeta cfg)
      = writeMany ps
          (write totalWrite (formattedStore s0 cfg) (freshMeta cfg) (some p0)).2.1
          (write totalWrite (formattedStore s0 cfg) (freshMeta cfg) (some p0)).2.2 := by
    unfold writeMany
    rw [List.foldl_cons]
  rw [hunf, List.getLastD_cons]
  exact RingState_writeMany cfg sN nN hs hL h4 hn ps 1 p0 _ _ hfirst.2 (le_refl 1)
    (by omega) (fun q hq => hval q (List.mem_cons_of_mem _ hq))

/-- The handle that describes the head of a ring after `k ≥ 1` writes. -/
def ringMeta (cfg : Config) (nN k : Nat) : Metadata :=
  { toConfig := cfg, version := k - 1,
    offset := (((k - 1) % nN : Nat) : Int) * cfg.stride, empty := false }

theorem RingState_meta_eq (cfg : Config) (nN k : Nat) (p : List Nat) (st : Store)
    (m : Metadata) (hRS : RingState cfg nN k p st m) :
    m = ringMeta cfg nN k := by
  obtain ⟨h1, h2, h3, h4, _, _⟩ := hRS
  calc m = { toConfig := m.toConfig, version := m.version,
             offset := m.offset, empty := m.empty } := rfl
  _ = ringMeta cfg nN k := by unfold ringMeta; rw [h1, h2, h3, h4]

theorem init_ring (cfg : Config) (sN nN k : Nat) (st : Store)
    (hs : cfg.stride = (sN : Int)) (hL : cfg.byteLength = ((nN * sN : Nat) : Int))
    (h4 : 4 ≤ sN) (hn : 1 ≤ nN) (hk : 1 ≤ k) (hk32 : k ≤ 4294967295)
    (hheads : ringHeaders cfg nN k st) :
    init st cfg = some (ringMeta cfg nN k) := by
  unfold init search ringMeta
  by_cases hfs : cfg.fullScan = true
  · rw [if_pos hfs, search_linear_ring cfg sN nN k st hs hL h4 hn hk hk32 hheads]
    rfl
  · rw [if_neg hfs]
    obtain ⟨log, hlog⟩ := search_binary_ring cfg sN nN k st hs hL h4 hn hk hk32 hheads
    rw [hlog]
    rfl

/-- A valid configuration: stride of at least `HEADER_SIZE + 1` bytes and a
partition that is a whole positive number of slots. -/
def ValidConfig (cfg : Config) : Prop :=
  5 ≤ cfg.stride ∧ cfg.stride ∣ cfg.byteLength ∧ cfg.stride ≤ cfg.byteLength

theorem ValidConfig_repr (cfg : Config) (h : ValidConfig cfg) :
    ∃ sN nN : Nat, 5 ≤ sN ∧ 1 ≤ nN ∧ cfg.stride = (sN : Int)
      ∧ cfg.byteLength = ((nN * sN : Nat) : Int) := by
  obtain ⟨h5, ⟨c, hc⟩, hle⟩ := h
  have hcpos : 0 < c := by
    by_contra hc0
    push_neg at hc0
    have : cfg.stride * c ≤ 0 := mul_nonpos_of_nonneg_of_nonpos (by omega) hc0
    omega
  refine ⟨cfg.stride.toNat, c.toNat, by omega, by omega, by omega, ?_⟩
  rw [hc]
  have h1 : ((c.toNat * cfg.stride.toNat : Nat) : Int)
      = ((c.toNat : Nat) : Int) * ((cfg.stride.toNat : Nat) : Int) := by
    push_cast
    ring
  rw [h1]
  rw [Int.toNat_of_nonneg (by omega), Int.toNat_of_nonneg (by omega)]
  ring

theorem slotCount_eq (cfg : Config) (sN nN : Nat)
    (hs : cfg.stride = (sN : Int)) (hL : cfg.byteLength = ((nN * sN : Nat) : Int))
    (h1 : 1 ≤ sN) :
    cfg.byteLength / cfg.stride = (nN : Int) := by
  rw [hL, hs]
  rw [show ((nN * sN : Nat) : Int) = ((nN : Nat) : Int) * ((sN : Nat) : Int) from by
    push_cast; ring]
  rw [Int.mul_ediv_cancel _ (by omega)]

/-! ### Claim theorems -/

/-- C1: for every valid configuration, after `format`, `init`, and `k ≥ 1`
successful writes, calling `init` again over the same store with the same
options returns a handle whose fields (in particular version, offset and
empty) equal those of the in-memory handle maintained by the writes. -/
theorem reinit_after_writes_recovers_handle (cfg : Config) (s0 s1 : Store)
    (m0 : Metadata) (ps : List (List Nat))
    (hv : ValidConfig cfg)
    (hps : ps ≠ []) (hk32 : ps.length ≤ 4294967295)
    (hval : ∀ q ∈ ps, (q.length : Int) + (HEADER_SIZE : Int) ≤ cfg.stride)
    (hfmt : format totalWrite s0 cfg.byteLength cfg.baseAddress = some s1)
    (hinit : init s1 cfg = some m0) :
    init (writeMany ps s1 m0).1 cfg = some (writeMany ps s1 m0).2 := by
  obtain ⟨sN, nN, h5, hn, hs, hL⟩ := ValidConfig_repr cfg hv
  have h4L : (4 : Int) ≤ cfg.byteLength := by
    have := Nat.mul_le_mul hn h5
    omega
  rw [format_totalWrite] at hfmt
  have hs1 : s1 = formattedStore s0 cfg := (Option.some.inj hfmt).symm
  subst hs1
  rw [init_formatted cfg s0 (by omega) h4L] at hinit
  have hm0 : m0 = freshMeta cfg := (Option.some.inj hinit).symm
  subst hm0
  rcases ps with _ | ⟨p0, rest⟩
  · exact absurd rfl hps
  have hRS := RingState_pipeline cfg sN nN s0 p0 rest hs hL (by omega) hn hval
    (by simp at hk32 ⊢; omega)
  obtain ⟨-, -, -, -, hheads, -⟩ := hRS
  rw [RingState_meta_eq cfg nN (1 + rest.length) ((p0 :: rest).getLastD []) _ _
    (RingState_pipeline cfg sN nN s0 p0 rest hs hL (by omega) hn hval
      (by simp at hk32 ⊢; omega))]
  exact init_ring cfg sN nN (1 + rest.length) _ hs hL (by omega) hn (by omega)
    (by simp at hk32 ⊢; omega) hheads

/-- C3: after `k ≥ 1` successful writes with stride `s` over
`n = floor(byteLength / stride)` slots, starting from a freshly formatted
and initialised handle, the handle satisfies `version = k - 1` and
`offset = ((k - 1) mod n) * s`. -/
theorem handle_after_k_writes (cfg : Config) (s0 s1 : Store)
    (m0 : Metadata) (ps : List (List Nat))
    (hv : ValidConfig cfg)
    (hps : ps ≠ []) (hk32 : ps.length ≤ 4294967295)
    (hval : ∀ q ∈ ps, (q.length : Int) + (HEADER_SIZE : Int) ≤ cfg.stride)
    (hfmt : format totalWrite s0 cfg.byteLength cfg.baseAddress = some s1)
    (hinit : init s1 cfg = some m0) :
    (writeMany ps s1 m0).2.version = ps.length - 1 ∧
    (writeMany ps s1 m0).2.offset
      = (((ps.length - 1) % (cfg.byteLength / cfg.stride).toNat : Nat) : Int)
          * cfg.stride := by
  obtain ⟨sN, nN, h5, hn, hs, hL⟩ := ValidConfig_repr cfg hv
  have h4L : (4 : Int) ≤ cfg.byteLength := by
    have := Nat.mul_le_mul hn h5
    omega
  rw [format_totalWrite] at hfmt
  have hs1 : s1 = formattedStore s0 cfg := (Option.some.inj hfmt).symm
  subst hs1
  rw [init_formatted cfg s0 (by omega) h4L] at hinit
  have hm0 : m0 = freshMeta cfg := (Option.some.inj hinit).symm
  subst hm0
  rcases ps with _ | ⟨p0, rest⟩
  · exact absurd rfl hps
  have hRS := RingState_pipeline cfg sN nN s0 p0 rest hs hL (by omega) hn hval
    (by simp at hk32 ⊢; omega)
  obtain ⟨-, hver, hoff, -, -, -⟩ := hRS
  have hn' : (cfg.byteLength / cfg.stride).toNat = nN := by
    rw [slotCount_eq cfg sN nN hs hL (by omega)]
    omega
  have hlen : (p0 :: rest).length = 1 + rest.length := by simp; omega
  rw [hlen, hn']
  exact ⟨hver, hoff⟩

/-- C5: on any failure during `write` (including a failing backing-store
write), the error propagates and the caller's handle is left exactly as it
was; the handle changes only on the fully successful path. -/
theorem write_failure_leaves_handle (sw : StoreWrite) (st : Store)
    (m : Metadata) (buffer : Option (List Nat)) :
    (write sw st m buffer).1 = none ∨ (write sw st m buffer).2.2 = m := by
  unfold write
  match buffer with
  | none => right; rfl
  | some buf =>
    dsimp only
    split
    · right; rfl
    · cases hsw : sw st (m.baseAddress + (if m.empty = true then m.offset
        else if decide (m.offset + m.stride ≥ m.byteLength) then 0
        else m.offset + m.stride)) (u32ToBytes (if m.empty = true then m.version
          else m.version + 1) m.littleEndian ++ buf) with
      | none => right; simp [hsw]
      | some s1 => left; simp [hsw]

/-- C6: `write` raises an invalid-payload error exactly when the payload is
missing or longer than `stride - 4` bytes, and in that case it does so
before issuing any operation to the backing store: the result does not
depend on the store-write capability and the store is returned untouched. -/
theorem write_invalid_payload (sw : StoreWrite) (st : Store) (m : Metadata)
    (buffer : Option (List Nat)) :
    (((write sw st m buffer).1 = some WriteError.bufferUndefined
        ∨ (write sw st m buffer).1 = some WriteError.bufferTooLarge)
      ↔ (buffer = none
          ∨ ∃ b, buffer = some b ∧ m.stride - (HEADER_SIZE : Int) < b.length))
    ∧ (buffer = none → write sw st m buffer = (some WriteError.bufferUndefined, st, m))
    ∧ (∀ b, buffer = some b → m.stride - (HEADER_SIZE : Int) < (b.length : Int) →
        write sw st m buffer = (some WriteError.bufferTooLarge, st, m)) := by
  match buffer with
  | none =>
    refine ⟨⟨fun _ => Or.inl rfl, fun _ => Or.inl rfl⟩, fun _ => rfl, ?_⟩
    intro b hb
    cases hb
  | some b =>
    unfold write
    dsimp only
    by_cases hsz : ((b.length : Int) + (HEADER_SIZE : Int)) > m.stride
    · rw [if_pos hsz]
      refine ⟨⟨fun _ => Or.inr ⟨b, rfl, by omega⟩, fun _ => Or.inr rfl⟩, ?_, ?_⟩
      · intro hc
        cases hc
      · intro b' hb' _
        cases hb'
        rfl
    · rw [if_neg hsz]
      cases hsw : sw st (m.baseAddress + (if m.empty = true then m.offset
          else if decide (m.offset + m.stride ≥ m.byteLength) then 0
          else m.offset + m.stride)) (u32ToBytes (if m.empty = true then m.version
            else m.version + 1) m.littleEndian ++ b) with
      | none =>
        simp only [hsw]
        refine ⟨⟨?_, ?_⟩, ?_, ?_⟩
        · intro hc
          rcases hc with hc | hc <;> simp at hc
        · intro hc
          rcases hc with hc | ⟨b', hb', hlen⟩
          · simp at hc
          · cases hb'
            exact absurd hlen (by omega)
        · intro hc
          simp at hc
        · intro b' hb' hlen
          cases hb'
          exact absurd hlen (by omega)
      | some s1 =>
        simp only [hsw]
        refine ⟨⟨?_, ?_⟩, ?_, ?_⟩
        · intro hc
          rcases hc with hc | hc <;> simp at hc
        · intro hc
          rcases hc with hc | ⟨b', hb', hlen⟩
          · simp at hc
          · cases hb'
            exact absurd hlen (by omega)
        · intro hc
          simp at hc
        · intro b' hb' hlen
          cases hb'
          exact absurd hlen (by omega)

/-- C9: among all operations only `write` mutates a handle, and it leaves
every configuration field (baseAddress, byteLength, stride, littleEndian,
fullScan) unchanged; `read`, `list` and `listSlots` are pure functions of a
handle in this embedding because the source never assigns to a handle
outside `write`. -/
theorem write_preserves_config_fields (sw : StoreWrite) (st : Store)
    (m : Metadata) (buffer : Option (List Nat)) :
    ((write sw st m buffer).2.2).baseAddress = m.baseAddress
    ∧ ((write sw st m buffer).2.2).byteLength = m.byteLength
    ∧ ((write sw st m buffer).2.2).stride = m.stride
    ∧ ((write sw st m buffer).2.2).littleEndian = m.littleEndian
    ∧ ((write sw st m buffer).2.2).fullScan = m.fullScan := by
  refine ⟨?_, ?_, ?_, ?_, ?_⟩ <;> rw [write_config_frame sw st m buffer]

/-- C10: on every deterministic store whose configuration has at least one
slot and whose slot 0 header is not erased, the recursive binary head
search terminates (the fuelled embedding returns a value) and every header
read it performs is at a slot position within `[0, slotCount - 1]`. -/
theorem binary_search_terminates_in_bounds (st : Store) (cfg : Config)
    (hn : 1 ≤ cfg.byteLength / cfg.stride)
    (h0 : readVersion st cfg 0 ≠ HEADER_INIT_VALUE32) :
    ∃ r log, search_binary st cfg = some (r, log) ∧
      ∀ x ∈ log, 0 ≤ x ∧ x ≤ cfg.byteLength / cfg.stride - 1 :=
  search_binary_total st cfg hn h0

theorem storeRead_take (st : Store) (a : Int) (len m : Nat) :
    (storeRead st a len).take m = storeRead st a (min m len) := by
  apply List.ext_getElem
  · rw [List.length_take, length_storeRead, length_storeRead]
  · intro i h1 h2
    rw [List.getElem_take, getElem_storeRead, getElem_storeRead]

theorem storeRead_drop (st : Store) (a : Int) (len d : Nat) :
    (storeRead st a len).drop d = storeRead st (a + (d : Int)) (len - d) := by
  apply List.ext_getElem
  · rw [List.length_drop, length_storeRead, length_storeRead]
  · intro i h1 h2
    rw [List.getElem_drop, getElem_storeRead, getElem_storeRead]
    congr 1
    push_cast
    ring

theorem readSlot_version (st : Store) (cfg : Config) (off : Int)
    (h4 : (4 : Int) ≤ cfg.stride) :
    (readSlot st off cfg).1 = readVersion st cfg off := by
  unfold readSlot readVersion
  dsimp only
  rw [show HEADER_SIZE = 4 from rfl, storeRead_take,
    show min 4 cfg.stride.toNat = 4 from by omega]

theorem rangeLen_ceil (L s : Int) (hs : 1 ≤ s) (hL : 0 ≤ L) :
    rangeLen 0 (L - 1) s = ((L + s - 1) / s).toNat := by
  rcases eq_or_lt_of_le hL with h0 | h0
  · rw [rangeLen_of_gt _ _ _ (by omega), ← h0]
    rw [show (0 : Int) + s - 1 = s - 1 from by omega]
    rw [Int.ediv_eq_zero_of_lt (by omega) (by omega)]
    rfl
  · rw [rangeLen_of_le _ _ _ (by omega) (by omega)]
    have hsplit : (L + s - 1) / s = (L - 1) / s + 1 := by
      rw [show L + s - 1 = (L - 1) + 1 * s from by omega,
        Int.add_mul_ediv_right _ _ (by omega)]
    rw [hsplit]
    rw [show L - 1 - 0 = L - 1 from by omega]
    have h1 : 0 ≤ (L - 1) / s := Int.ediv_nonneg (by omega) (by omega)
    omega

/-! ### C2: linear vs binary head finder -/

/-- C2 (amended): on every ring produced by `format` followed by any
sequence of successful writes over a configuration whose stride divides
its byteLength, the two head finders return identical results. -/
theorem linear_binary_agree_on_rings (cfg : Config) (s0 s1 : Store)
    (ps : List (List Nat))
    (hv : ValidConfig cfg)
    (hk32 : ps.length ≤ 4294967295)
    (hval : ∀ q ∈ ps, (q.length : Int) + (HEADER_SIZE : Int) ≤ cfg.stride)
    (hfmt : format totalWrite s0 cfg.byteLength cfg.baseAddress = some s1) :
    (search_binary (writeMany ps s1 (freshMeta cfg)).1 cfg).map Prod.fst
      = some (search_linear (writeMany ps s1 (freshMeta cfg)).1 cfg) := by
  obtain ⟨sN, nN, h5, hn, hs, hL⟩ := ValidConfig_repr cfg hv
  have h4L : (4 : Int) ≤ cfg.byteLength := by
    have := Nat.mul_le_mul hn h5
    omega
  rw [format_totalWrite] at hfmt
  have hs1 : s1 = formattedStore s0 cfg := (Option.some.inj hfmt).symm
  subst hs1
  rcases ps with _ | ⟨p0, rest⟩
  · show (search_binary (formattedStore s0 cfg) cfg).map Prod.fst
        = some (search_linear (formattedStore s0 cfg) cfg)
    rw [search_binary_formatted cfg s0 h4L,
      search_linear_formatted cfg s0 (by omega) h4L]
    rfl
  · have hRS := RingState_pipeline cfg sN nN s0 p0 rest hs hL (by omega) hn hval
      (by simp at hk32 ⊢; omega)
    obtain ⟨-, -, -, -, hheads, -⟩ := hRS
    obtain ⟨log, hlog⟩ := search_binary_ring cfg sN nN (1 + rest.length) _ hs hL
      (by omega) hn (by omega) (by simp at hk32 ⊢; omega) hheads
    rw [hlog, search_linear_ring cfg sN nN (1 + rest.length) _ hs hL
      (by omega) hn (by omega) (by simp at hk32 ⊢; omega) hheads]
    rfl

/-- A store whose every cell reads zero, used as arbitrary prior contents. -/
def cexStore2 : Store := fun _ => 0

/-- A configuration with a 1-byte residual (9 bytes, stride 8). -/
def cexCfg2 : Config :=
  { baseAddress := 0, stride := 8, littleEndian := false, byteLength := 9,
    fullScan := false }

/-- The ring obtained by formatting `cexStore2` and writing one payload. -/
def cexRing2 : Store :=
  (writeMany [[1, 2, 3, 4]]
    ((format totalWrite cexStore2 cexCfg2.byteLength cexCfg2.baseAddress).getD
      cexStore2)
    (freshMeta cexCfg2)).1

/-- C2 (counterexample): on a ring produced by `format` then one successful
write over a 9-byte partition with stride 8 (residual 1 byte), the linear
scanner reads a phantom header straddling the partition end and disagrees
with the binary finder. -/
theorem linear_binary_disagree_cex :
    (search_binary cexRing2 cexCfg2).map Prod.fst
      ≠ some (search_linear cexRing2 cexCfg2) := by
  decide

/-! ### C8: listSlots -/

/-- A store whose every cell reads `0xFF`. -/
def cexStore8 : Store := fun _ => 255

/-- A 9-byte layout with stride 8 for the listSlots count counterexample. -/
def cexCfg8 : Config :=
  { baseAddress := 0, stride := 8, littleEndian := false, byteLength := 9,
    fullScan := false }

/-- C8 (counterexample): on a 9-byte partition with stride 8,
`listSlots` yields 2 items, not `floor(byteLength / stride) = 1`. -/
theorem listSlots_count_cex :
    ¬ ((listSlots cexStore8 cexCfg8).length
        = (cexCfg8.byteLength / cexCfg8.stride).toNat) := by
  decide

/-- C8 (amended): for every layout with a positive stride of at least
`HEADER_SIZE` bytes and a non-negative byteLength, `listSlots` yields
exactly `ceil(byteLength / stride)` items (`floor(byteLength / stride)`
when stride divides byteLength), in physical slot-index order starting at
slot 0, with erased slots included and reported with version
`0xFFFF_FFFF`. -/
theorem listSlots_layout (st : Store) (cfg : Config)
    (h4 : (4 : Int) ≤ cfg.stride) (hlen : 0 ≤ cfg.byteLength) :
    (listSlots st cfg).length = ((cfg.byteLength + cfg.stride - 1) / cfg.stride).toNat
    ∧ (∀ i, ∀ h : i < (listSlots st cfg).length,
        (listSlots st cfg).get ⟨i, h⟩ = readSlot st ((i : Int) * cfg.stride) cfg)
    ∧ (∀ i, ∀ h : i < (listSlots st cfg).length,
        (∀ d : Nat, d < HEADER_SIZE →
          st (cfg.baseAddress + (i : Int) * cfg.stride + (d : Int)) % 256
            = HEADER_INIT_VALUE8) →
        ((listSlots st cfg).get ⟨i, h⟩).1 = HEADER_INIT_VALUE32) := by
  have hget : ∀ i, ∀ h : i < (listSlots st cfg).length,
      (listSlots st cfg).get ⟨i, h⟩ = readSlot st ((i : Int) * cfg.stride) cfg := by
    intro i h
    unfold listSlots range at h ⊢
    rw [List.get_eq_getElem]
    rw [List.getElem_map, List.getElem_map, List.getElem_range, zero_add]
  refine ⟨?_, hget, ?_⟩
  · unfold listSlots range
    rw [List.length_map, List.length_map, List.length_range]
    exact rangeLen_ceil cfg.byteLength cfg.stride (by omega) hlen
  · intro i h hff
    rw [hget i h]
    unfold readSlot
    dsimp only
    rw [show HEADER_SIZE = 4 from rfl, storeRead_take,
      show min 4 cfg.stride.toNat = 4 from by omega]
    have hbytes : storeRead st (cfg.baseAddress + (i : Int) * cfg.stride) 4
        = List.replicate 4 HEADER_INIT_VALUE8 := by
      apply List.ext_getElem
      · rw [length_storeRead, List.length_replicate]
      · intro d h1 h2
        rw [getElem_storeRead, List.getElem_replicate]
        have hd : d < 4 := by rw [length_storeRead] at h1; exact h1
        exact hff d hd
    rw [hbytes]
    exact bytesToU32_replicate_ff _

theorem getLastD_mem_cons {α : Type} : ∀ (xs : List α) (d : α), xs.getLastD d ∈ d :: xs := by
  intro xs
  induction xs with
  | nil => intro d; exact List.mem_cons_self _ _
  | cons x xs ih =>
    intro d
    rw [List.getLastD_cons]
    rcases List.mem_cons.mp (ih x) with h | h
    · rw [h]
      exact List.mem_cons_of_mem _ (List.mem_cons_self _ _)
    · exact List.mem_cons_of_mem _ (List.mem_cons_of_mem _ h)

/-! ### C4: read returns the most recent payload -/

/-- C4: for every handle produced by `init` after at least one successful
write, `read` returns exactly `stride - 4` bytes whose prefix equals the
payload passed to the most recent successful write (the remainder being
whatever bytes the store holds in the rest of that slot). -/
theorem read_returns_last_payload (cfg : Config) (s0 s1 : Store)
    (m0 mk : Metadata) (ps : List (List Nat))
    (hv : ValidConfig cfg)
    (hps : ps ≠ []) (hk32 : ps.length ≤ 4294967295)
    (hval : ∀ q ∈ ps, (q.length : Int) + (HEADER_SIZE : Int) ≤ cfg.stride)
    (hbytes : ∀ q ∈ ps, ∀ x ∈ q, x < 256)
    (hfmt : format totalWrite s0 cfg.byteLength cfg.baseAddress = some s1)
    (hinit0 : init s1 cfg = some m0)
    (hinit : init (writeMany ps s1 m0).1 cfg = some mk) :
    ∃ d, read (writeMany ps s1 m0).1 mk = Except.ok (some d)
      ∧ d.length = (cfg.stride - (HEADER_SIZE : Int)).toNat
      ∧ d.take (ps.getLastD []).length = ps.getLastD [] := by
  obtain ⟨sN, nN, h5, hn, hs, hL⟩ := ValidConfig_repr cfg hv
  have h4L : (4 : Int) ≤ cfg.byteLength := by
    have := Nat.mul_le_mul hn h5
    omega
  rw [format_totalWrite] at hfmt
  have hs1 : s1 = formattedStore s0 cfg := (Option.some.inj hfmt).symm
  subst hs1
  rw [init_formatted cfg s0 (by omega) h4L] at hinit0
  have hm0 : m0 = freshMeta cfg := (Option.some.inj hinit0).symm
  subst hm0
  rcases ps with _ | ⟨p0, rest⟩
  · exact absurd rfl hps
  have hRS := RingState_pipeline cfg sN nN s0 p0 rest hs hL (by omega) hn hval
    (by simp at hk32 ⊢; omega)
  obtain ⟨hcfg, hver, hoff, hemp, hheads, hpay⟩ := hRS
  set k := 1 + rest.length with hkdef
  set p := (p0 :: rest).getLastD [] with hpdef
  set stw := (writeMany (p0 :: rest) (formattedStore s0 cfg) (freshMeta cfg)).1
    with hstw
  rw [init_ring cfg sN nN k stw hs hL (by omega) hn (by omega)
    (by simp at hk32; omega) hheads] at hinit
  have hmk : mk = ringMeta cfg nN k := (Option.some.inj hinit).symm
  subst hmk
  have hpmem : p ∈ p0 :: rest := by
    rw [hpdef, List.getLastD_cons]
    exact getLastD_mem_cons rest p0
  have hplen : (p.length : Int) + (HEADER_SIZE : Int) ≤ cfg.stride := hval p hpmem
  have hplen4 : (p.length : Int) + 4 ≤ cfg.stride := by
    rw [HEADER_SIZE_int] at hplen
    exact hplen
  have hpbytes : ∀ x ∈ p, x < 256 := hbytes p hpmem
  unfold read ringMeta
  dsimp only
  rw [if_neg (by simp)]
  rw [show (readSlot stw ((((k - 1) % nN : Nat) : Int) * cfg.stride) cfg).1
      = readVersion stw cfg ((((k - 1) % nN : Nat) : Int) * cfg.stride) from
    readSlot_version stw cfg _ (by omega)]
  have hvval : readVersion stw cfg ((((k - 1) % nN : Nat) : Int) * cfg.stride)
      = k - 1 := by
    rw [hheads ((k - 1) % nN) (Nat.mod_lt _ hn)]
    rw [if_pos (by
      have h1 : (k - 1) % nN ≤ k - 1 := Nat.mod_le _ _
      have h2 : (k - 1) % nN < nN := Nat.mod_lt _ hn
      omega)]
    exact verAt_head k nN hn (by omega)
  rw [hvval]
  rw [if_neg (fun hc => hc rfl)]
  refine ⟨_, rfl, ?_, ?_⟩
  · unfold readSlot
    dsimp only
    rw [storeRead_drop, length_storeRead]
    omega
  · unfold readSlot
    dsimp only
    rw [show HEADER_SIZE = 4 from rfl]
    rw [storeRead_drop, storeRead_take]
    have hmin : min p.length (cfg.stride.toNat - 4) = p.length := by omega
    rw [hmin]
    have hpay' : storeRead stw (cfg.baseAddress
        + (((k - 1) % nN : Nat) : Int) * cfg.stride + ((4 : Nat) : Int)) p.length
        = p.map (· % 256) := by
      rw [← hoff]
      rw [show ((4 : Nat) : Int) = ((HEADER_SIZE : Nat) : Int) from rfl]
      exact hpay
    rw [hpay']
    calc p.map (· % 256) = p.map id := by
          apply List.map_congr_left
          intro x hx
          exact Nat.mod_eq_of_lt (hpbytes x hx)
    _ = p := List.map_id p

/-! ### C7: logical listing walks the ring newest to oldest -/

theorem actual_offset_eq (sN nN h t : Nat) (hs : 1 ≤ sN) (hn : 1 ≤ nN)
    (hh : h < nN) (ht : t < nN) :
    (((h : Int) * (sN : Int) - ((t : Nat) : Int) * (sN : Int)
        + ((nN * sN : Nat) : Int)) % ((nN * sN : Nat) : Int))
      = (((h + nN - t) % nN : Nat) : Int) * (sN : Int) := by
  have h2 : ((h + nN - t : Nat) : Int) = (h : Int) + (nN : Int) - (t : Int) := by omega
  have h1 : (h : Int) * (sN : Int) - ((t : Nat) : Int) * (sN : Int)
      + ((nN * sN : Nat) : Int) = (((h + nN - t) * sN : Nat) : Int) := by
    rw [show (((h + nN - t) * sN : Nat) : Int)
        = ((h + nN - t : Nat) : Int) * ((sN : Nat) : Int) from by rw [Nat.cast_mul]]
    rw [h2, Nat.cast_mul]
    ring
  rw [h1]
  calc (((h + nN - t) * sN : Nat) : Int) % ((nN * sN : Nat) : Int)
      = ((((h + nN - t) * sN) % (nN * sN) : Nat) : Int) := by
        exact_mod_cast rfl
  _ = ((((h + nN - t) % nN) * sN : Nat) : Int) := by
        rw [Nat.mul_mod_mul_right]
  _ = (((h + nN - t) % nN : Nat) : Int) * (sN : Int) := by
        rw [Nat.cast_mul]

theorem verAt_back (k nN t : Nat) (hn : 1 ≤ nN) (hk : 1 ≤ k) (ht : t < min k nN) :
    ((k - 1) % nN + nN - t) % nN < min k nN
    ∧ verAt k (((k - 1) % nN + nN - t) % nN) nN = k - 1 - t := by
  have hd := Nat.div_add_mod (k - 1) nN
  have hmod := Nat.mod_lt (k - 1) (show 0 < nN by omega)
  rcases le_or_lt t ((k - 1) % nN) with hth | hth
  · have hjj : ((k - 1) % nN + nN - t) % nN = (k - 1) % nN - t := by
      rw [show (k - 1) % nN + nN - t = ((k - 1) % nN - t) + 1 * nN from by omega,
        Nat.add_mul_mod_self_right]
      exact Nat.mod_eq_of_lt (by omega)
    rw [hjj]
    refine ⟨by omega, ?_⟩
    rw [verAt_left k _ nN (by omega) (by omega)]
    omega
  · have hq : 1 ≤ (k - 1) / nN := by
      refine (Nat.one_le_div_iff (show 0 < nN by omega)).mpr ?_
      by_contra hlt
      have hm2 : (k - 1) % nN = k - 1 := Nat.mod_eq_of_lt (by omega)
      omega
    have hmul : nN * 1 ≤ nN * ((k - 1) / nN) := Nat.mul_le_mul_left nN hq
    have hjj : ((k - 1) % nN + nN - t) % nN = (k - 1) % nN + nN - t :=
      Nat.mod_eq_of_lt (by omega)
    rw [hjj]
    refine ⟨by omega, ?_⟩
    have hvr := verAt_right k ((k - 1) % nN + nN - t) nN (by omega) (by omega)
      (by omega) (by omega)
    omega

theorem verAt_back_erased (k nN : Nat) (hn : 1 ≤ nN) (hk : 1 ≤ k) (hkn : k < nN) :
    min k nN ≤ ((k - 1) % nN + nN - k) % nN := by
  rw [Nat.mod_eq_of_lt (show k - 1 < nN from by omega)]
  rw [Nat.mod_eq_of_lt (show k - 1 + nN - k < nN from by omega)]
  omega

theorem listGo_ring (st : Store) (cfg : Config) (m : Metadata) (sN nN k : Nat)
    (hs : cfg.stride = (sN : Int)) (hL : cfg.byteLength = ((nN * sN : Nat) : Int))
    (h4 : 4 ≤ sN) (hn : 1 ≤ nN) (hk : 1 ≤ k) (hk32 : k ≤ 4294967295)
    (hmc : m.toConfig = cfg)
    (hmo : m.offset = (((k - 1) % nN : Nat) : Int) * (sN : Int))
    (hheads : ringHeaders cfg nN k st) :
    ∀ (c t : Nat), t + c = nN → t ≤ min k nN →
      (listGo st m ((List.range' t c).map (fun j => ((j : Nat) : Int) * (sN : Int)))).map
          Prod.fst
        = (List.range' t (min k nN - t)).map (fun u => k - 1 - u) := by
  have hmb : m.byteLength = ((nN * sN : Nat) : Int) := by
    rw [show m.byteLength = cfg.byteLength from by rw [hmc], hL]
  intro c
  induction c with
  | zero =>
    intro t htc htW
    rw [show min k nN - t = 0 from by omega]
    rfl
  | succ c ih =>
    intro t htc htW
    rw [List.range'_succ, List.map_cons]
    simp only [listGo]
    have haoff : (m.offset - ((t : Nat) : Int) * (sN : Int) + m.byteLength) % m.byteLength
        = ((((k - 1) % nN + nN - t) % nN : Nat) : Int) * (sN : Int) := by
      rw [hmo, hmb]
      exact actual_offset_eq sN nN ((k - 1) % nN) t (by omega) hn
        (Nat.mod_lt _ (by omega)) (by omega)
    rw [haoff, hmc]
    have hjn : ((k - 1) % nN + nN - t) % nN < nN := Nat.mod_lt _ (by omega)
    have hver : (readSlot st (((((k - 1) % nN + nN - t) % nN : Nat) : Int)
          * (sN : Int)) cfg).1
        = readVersion st cfg (((((k - 1) % nN + nN - t) % nN : Nat) : Int)
          * (sN : Int)) := by
      apply readSlot_version
      rw [hs]
      omega
    have hread := hheads (((k - 1) % nN + nN - t) % nN) hjn
    rw [hs] at hread
    rcases Nat.lt_or_ge t (min k nN) with htw | htw
    · obtain ⟨hjlt, hjval⟩ := verAt_back k nN t hn hk htw
      rw [if_neg (by
        rw [hver, hread, if_pos hjlt, hjval]
        unfold HEADER_INIT_VALUE32
        omega)]
      rw [List.map_cons]
      rw [show min k nN - t = (min k nN - (t + 1)) + 1 from by omega,
        List.range'_succ, List.map_cons]
      exact congrArg₂ List.cons
        (by rw [hver, hread, if_pos hjlt, hjval])
        (ih (t + 1) (by omega) (by omega))
    · have htW' : t = min k nN := by omega
      have hkn : k < nN := by omega
      have hmineq : min k nN = k := min_eq_left (le_of_lt hkn)
      have hjer := verAt_back_erased k nN hn hk hkn
      rw [if_pos (by
        rw [hver, hread]
        rw [show t = k from by omega]
        rw [if_neg (by omega)])]
      rw [show min k nN - t = 0 from by omega]
      rfl

/-- C7: over a ring produced by `format` and `k >= 1` successful writes,
`list` yields nothing when the handle is empty, and otherwise yields at most
`slotCount` records whose version values are strictly decreasing (it walks
backward from the head and stops at the first erased slot). -/
theorem list_versions_strictly_decreasing (cfg : Config) (s0 s1 : Store)
    (m0 : Metadata) (ps : List (List Nat))
    (hv : ValidConfig cfg)
    (hps : ps ≠ []) (hk32 : ps.length ≤ 4294967295)
    (hval : ∀ q ∈ ps, (q.length : Int) + (HEADER_SIZE : Int) ≤ cfg.stride)
    (hfmt : format totalWrite s0 cfg.byteLength cfg.baseAddress = some s1)
    (hinit : init s1 cfg = some m0) :
    (∀ (st2 : Store) (m2 : Metadata), m2.empty = true → list st2 m2 = [])
    ∧ (list (writeMany ps s1 m0).1 (writeMany ps s1 m0).2).length
        ≤ (cfg.byteLength / cfg.stride).toNat
    ∧ ((list (writeMany ps s1 m0).1 (writeMany ps s1 m0).2).map
        Prod.fst).Pairwise (· > ·) := by
  obtain ⟨sN, nN, h5, hn, hs, hL⟩ := ValidConfig_repr cfg hv
  have h4L : (4 : Int) ≤ cfg.byteLength := by
    have := Nat.mul_le_mul hn h5
    omega
  rw [format_totalWrite] at hfmt
  have hs1 : s1 = formattedStore s0 cfg := (Option.some.inj hfmt).symm
  subst hs1
  rw [init_formatted cfg s0 (by omega) h4L] at hinit
  have hm0 : m0 = freshMeta cfg := (Option.some.inj hinit).symm
  subst hm0
  rcases ps with _ | ⟨p0, rest⟩
  · exact absurd rfl hps
  have hk32' : 1 + rest.length ≤ 4294967295 := by
    simp at hk32
    omega
  have hRS := RingState_pipeline cfg sN nN s0 p0 rest hs hL (by omega) hn hval
    (by omega)
  obtain ⟨hcfg, hver, hoff, hemp, hheads, hpay⟩ := hRS
  set st := (writeMany (p0 :: rest) (formattedStore s0 cfg) (freshMeta cfg)).1
  set m := (writeMany (p0 :: rest) (formattedStore s0 cfg) (freshMeta cfg)).2
  have hlist : list st m
      = listGo st m ((List.range' 0 nN).map
          (fun j => ((j : Nat) : Int) * (sN : Int))) := by
    unfold list
    rw [if_neg (by rw [hemp]; simp)]
    rw [hcfg, hL, hs, range_ring sN nN (by omega) hn, List.range_eq_range']
  have hmain := listGo_ring st cfg m sN nN (1 + rest.length) hs hL (by omega) hn
    (by omega) hk32' hcfg (by rw [hoff, hs]) hheads nN 0 (by omega) (by omega)
  have hn' : (cfg.byteLength / cfg.stride).toNat = nN := by
    rw [slotCount_eq cfg sN nN hs hL (by omega)]
    omega
  refine ⟨?_, ?_, ?_⟩
  · intro st2 m2 h2
    unfold list
    rw [if_pos h2]
  · have hlen : (list st m).length = min (1 + rest.length) nN - 0 := by
      rw [hlist]
      have h := congrArg List.length hmain
      rw [List.length_map, List.length_map, List.length_range'] at h
      exact h
    rw [hlen, hn']
    omega
  · rw [hlist, hmain, List.pairwise_map]
    refine List.Pairwise.imp_of_mem ?_
      (List.pairwise_lt_range' 0 (min (1 + rest.length) nN - 0))
    intro a b ha hb hab
    have ha' := List.mem_range'_1.mp ha
    have hb' := List.mem_range'_1.mp hb
    simp only [gt_iff_lt]
    omega

/-! ### Concrete witness scenario: one five-byte slot, one write of `[9]` -/

/-- A store whose every cell reads zero, as arbitrary prior contents. -/
def wStore0 : Store := fun _ => 0

/-- A minimal valid configuration: a single slot of five bytes. -/
def wCfg : Config :=
  { baseAddress := 0, stride := 5, littleEndian := false, byteLength := 5,
    fullScan := false }

/-- The payload sequence of the witness scenario: one one-byte payload. -/
def wPs : List (List Nat) := [[9]]

/-- The store after formatting `wStore0` for `wCfg`. -/
def wStore1 : Store :=
  (format totalWrite wStore0 wCfg.byteLength wCfg.baseAddress).getD wStore0

/-- The handle produced by `init` over the formatted store. -/
def wMeta0 : Metadata := (init wStore1 wCfg).getD (freshMeta wCfg)

/-- The handle produced by `init` after the write of the witness scenario. -/
def wMetaK : Metadata :=
  (init (writeMany wPs wStore1 wMeta0).1 wCfg).getD (freshMeta wCfg)

theorem wCfg_valid : ValidConfig wCfg := ⟨by decide, ⟨1, by decide⟩, by decide⟩

/-- C1 witness at the concrete one-slot scenario. -/
theorem reinit_after_writes_recovers_handle_witness :
    ValidConfig wCfg
    ∧ init (writeMany wPs wStore1 wMeta0).1 wCfg = some (writeMany wPs wStore1 wMeta0).2 :=
  ⟨wCfg_valid,
    reinit_after_writes_recovers_handle wCfg wStore0 wStore1 wMeta0 wPs
      wCfg_valid (by decide) (by decide) (by decide) rfl rfl⟩

/-- C2 witness at the concrete one-slot scenario. -/
theorem linear_binary_agree_on_rings_witness :
    ValidConfig wCfg
    ∧ (search_binary (writeMany wPs wStore1 (freshMeta wCfg)).1 wCfg).map Prod.fst
        = some (search_linear (writeMany wPs wStore1 (freshMeta wCfg)).1 wCfg) :=
  ⟨wCfg_valid,
    linear_binary_agree_on_rings wCfg wStore0 wStore1 wPs
      wCfg_valid (by decide) (by decide) rfl⟩

/-- C3 witness at the concrete one-slot scenario. -/
theorem handle_after_k_writes_witness :
    ValidConfig wCfg
    ∧ (writeMany wPs wStore1 wMeta0).2.version = wPs.length - 1
    ∧ (writeMany wPs wStore1 wMeta0).2.offset
        = (((wPs.length - 1) % (wCfg.byteLength / wCfg.stride).toNat : Nat) : Int)
            * wCfg.stride :=
  ⟨wCfg_valid,
    (handle_after_k_writes wCfg wStore0 wStore1 wMeta0 wPs
      wCfg_valid (by decide) (by decide) (by decide) rfl rfl).1,
    (handle_after_k_writes wCfg wStore0 wStore1 wMeta0 wPs
      wCfg_valid (by decide) (by decide) (by decide) rfl rfl).2⟩

/-- C4 witness at the concrete one-slot scenario. -/
theorem read_returns_last_payload_witness :
    ValidConfig wCfg
    ∧ ∃ d, read (writeMany wPs wStore1 wMeta0).1 wMetaK = Except.ok (some d)
        ∧ d.length = (wCfg.stride - (HEADER_SIZE : Int)).toNat
        ∧ d.take (wPs.getLastD []).length = wPs.getLastD [] :=
  ⟨wCfg_valid,
    read_returns_last_payload wCfg wStore0 wStore1 wMeta0 wMetaK wPs
      wCfg_valid (by decide) (by decide) (by decide) (by decide) rfl rfl rfl⟩

/-- C7 witness at the concrete one-slot scenario. -/
theorem list_versions_strictly_decreasing_witness :
    ValidConfig wCfg
    ∧ (list (writeMany wPs wStore1 wMeta0).1 (writeMany wPs wStore1 wMeta0).2).length
        ≤ (wCfg.byteLength / wCfg.stride).toNat
    ∧ ((list (writeMany wPs wStore1 wMeta0).1 (writeMany wPs wStore1 wMeta0).2).map
        Prod.fst).Pairwise (· > ·) :=
  ⟨wCfg_valid,
    (list_versions_strictly_decreasing wCfg wStore0 wStore1 wMeta0 wPs
      wCfg_valid (by decide) (by decide) (by decide) rfl rfl).2.1,
    (list_versions_strictly_decreasing wCfg wStore0 wStore1 wMeta0 wPs
      wCfg_valid (by decide) (by decide) (by decide) rfl rfl).2.2⟩

/-- C8 witness at the concrete one-slot layout. -/
theorem listSlots_layout_witness :
    ((4 : Int) ≤ wCfg.stride ∧ (0 : Int) ≤ wCfg.byteLength)
    ∧ (listSlots wStore0 wCfg).length
        = ((wCfg.byteLength + wCfg.stride - 1) / wCfg.stride).toNat :=
  ⟨⟨by decide, by decide⟩,
    (listSlots_layout wStore0 wCfg (by decide) (by decide)).1⟩

/-- C10 witness: the all-zero store is not a ring produced by writes, yet
the binary search terminates on it with all reads in bounds. -/
theorem binary_search_terminates_in_bounds_witness :
    (1 ≤ wCfg.byteLength / wCfg.stride
      ∧ readVersion wStore0 wCfg 0 ≠ HEADER_INIT_VALUE32)
    ∧ ∃ r log, search_binary wStore0 wCfg = some (r, log) ∧
        ∀ x ∈ log, 0 ≤ x ∧ x ≤ wCfg.byteLength / wCfg.stride - 1 :=
  ⟨⟨by decide, by decide⟩,
    binary_search_terminates_in_bounds wStore0 wCfg (by decide) (by decide)⟩

/-! ### Residual layouts: counterexamples to the unrestricted claims

On a layout whose stride does not divide byteLength the writer wraps only
when `offset + stride >= byteLength`, so it marches through
`ceil(byteLength / stride)` slot positions, while the head finders and the
slot count only cover `floor(byteLength / stride)` slots.  Two writes on a
9-byte partition with stride 8 separate the two. -/

/-- A 9-byte layout with stride 8 (one whole slot plus one residual byte). -/
def cexCfgR : Config :=
  { baseAddress := 0, stride := 8, littleEndian := false, byteLength := 9,
    fullScan := false }

/-- A store whose every cell reads zero, as arbitrary prior contents. -/
def cexStoreR : Store := fun _ => 0

/-- The formatted 9-byte partition. -/
def cexStoreR1 : Store :=
  (format totalWrite cexStoreR cexCfgR.byteLength cexCfgR.baseAddress).getD cexStoreR

/-- The handle produced by `init` over the freshly formatted partition. -/
def cexMetaR0 : Metadata := (init cexStoreR1 cexCfgR).getD (freshMeta cexCfgR)

/-- Two successive payloads for the residual-layout scenario. -/
def cexPsR : List (List Nat) := [[1, 2, 3, 4], [5, 6, 7, 8]]

/-- The handle produced by `init` after the two writes of the scenario. -/
def cexMetaRK : Metadata :=
  (init (writeMany cexPsR cexStoreR1 cexMetaR0).1 cexCfgR).getD (freshMeta cexCfgR)

/-- C1 (counterexample): after format, init and two successful writes on the
9-byte/stride-8 layout, the writer's handle is `(version 1, offset 8)` but
re-running `init` over the written store returns `(version 0, offset 0)`:
the binary finder searches only `floor(9/8) = 1` slots while the writer
marched through two slot positions. -/
theorem reinit_after_writes_cex :
    init (writeMany cexPsR cexStoreR1 cexMetaR0).1 cexCfgR
      ≠ some (writeMany cexPsR cexStoreR1 cexMetaR0).2 := by
  decide

/-- C3 (counterexample): after two successful writes on the 9-byte/stride-8
layout the handle offset is 8, while the claimed formula
`((k - 1) mod floor(byteLength / stride)) * stride` gives 0. -/
theorem handle_after_k_writes_cex :
    ¬ ((writeMany cexPsR cexStoreR1 cexMetaR0).2.version = cexPsR.length - 1
      ∧ (writeMany cexPsR cexStoreR1 cexMetaR0).2.offset
          = (((cexPsR.length - 1) % (cexCfgR.byteLength / cexCfgR.stride).toNat : Nat) : Int)
              * cexCfgR.stride) := by
  decide

/-- C4 (counterexample): on the 9-byte/stride-8 layout after two successful
writes, `init` recovers the stale slot-0 head, and `read` on that handle
returns the first payload `[1, 2, 3, 4]`, whose prefix is not the most
recent payload `[5, 6, 7, 8]`. -/
theorem read_returns_last_payload_cex :
    read (writeMany cexPsR cexStoreR1 cexMetaR0).1 cexMetaRK
      = Except.ok (some [1, 2, 3, 4])
    ∧ ¬ (([1, 2, 3, 4] : List Nat).take (cexPsR.getLastD []).length
          = cexPsR.getLastD []) :=
  ⟨rfl, by decide⟩

/-- C7 (counterexample): on the 9-byte/stride-8 layout after two successful
writes, `list` yields two records, exceeding the claimed bound of
`slotCount = floor(9/8) = 1` items. -/
theorem list_versions_strictly_decreasing_cex :
    ¬ ((list (writeMany cexPsR cexStoreR1 cexMetaR0).1
          (writeMany cexPsR cexStoreR1 cexMetaR0).2).length
        ≤ (cexCfgR.byteLength / cexCfgR.stride).toNat) := by
  decide

end CyclicFS
